import Mathlib

/-!
Verification of the SQL template translation, value coercion/serialization,
column-type inference and transaction lifecycle logic of the prisma-bun-adapter
repository, as a shallow embedding in Lean.

The embedding follows two implementations found in the source tree:

* `Base` definitions follow `BaseBunDriverAdapter` (src/index.ts):
  `serializeValueFast`, `determineColumnTypes`, `ensureJsonString`,
  `coerceArgsForPostgres`, `convertParameterPlaceholders` for the three
  dialects, `executeQueryOptimized`, and the transaction returned by
  `startTransaction`.
* `Opt` definitions follow `OptimizedBunPostgresDriverAdapter`
  (src/optimized-index.ts): `serializeValueFast`, `determineColumnTypes`,
  `buildTemplate` / `replacePlaceholders` / `replaceDollarPlaceholders` /
  `replaceQuestionPlaceholders`, `getOrCreateTemplate`,
  `executeQueryOptimized`, and its `startTransaction`.

JavaScript runtime values are modelled by `JSValue`.  JavaScript numbers are
modelled abstractly by the three observations the adapter code makes of them:
`Number.isFinite`, `Number.isInteger` and `String(v)`.  `JSON.stringify` is
modelled for the value space reachable in this code (finite trees; `bigint`
throws, which is modelled by `Option.none`).
-/

set_option maxRecDepth 4000

namespace PBA

/-- Model of a JavaScript runtime value as seen by the adapter code. -/
inductive JSValue where
  | vNull : JSValue
  | vUndef : JSValue
  | vBool (b : Bool) : JSValue
  /-- A JS number, observed through `Number.isFinite`, `Number.isInteger`
  and its `String(v)` rendering. -/
  | vNum (finite : Bool) (intLike : Bool) (repr : String) : JSValue
  | vStr (s : String) : JSValue
  | vBigInt (n : Int) : JSValue
  /-- A `Date`; the field is its `toISOString()` rendering. -/
  | vDate (iso : String) : JSValue
  /-- A Node `Buffer` (list of bytes). -/
  | vBuf (bytes : List Nat) : JSValue
  | vArr (xs : List JSValue) : JSValue
  /-- A plain object (ordered fields). -/
  | vObj (fields : List (String × JSValue)) : JSValue

open JSValue

/-- `v === undefined`. -/
def isUndefJS : JSValue → Bool
  | vUndef => true
  | _ => false

/-- JavaScript `typeof`. -/
def typeofJS : JSValue → String
  | vNull => "object"
  | vUndef => "undefined"
  | vBool _ => "boolean"
  | vNum _ _ _ => "number"
  | vStr _ => "string"
  | vBigInt _ => "bigint"
  | vDate _ => "object"
  | vBuf _ => "object"
  | vArr _ => "object"
  | vObj _ => "object"

/-- `Array.isArray`. -/
def isArrayJS : JSValue → Bool
  | vArr _ => true
  | _ => false

/-- `value instanceof Date`. -/
def isDateJS : JSValue → Bool
  | vDate _ => true
  | _ => false

/-- `Buffer.isBuffer`. -/
def isBufferJS : JSValue → Bool
  | vBuf _ => true
  | _ => false

/-- JSON string escaping used when quoting a string (model of the escaping
`JSON.stringify` applies to string values). -/
def jsonEscapeChar (c : Char) : List Char :=
  if c = '\\' then ['\\', '\\']
  else if c = '"' then ['\\', '"']
  else if c = '\n' then ['\\', 'n']
  else if c = '\t' then ['\\', 't']
  else if c = '\x0d' then ['\\', 'r']
  else [c]

/-- Quote a string as a JSON string literal. -/
def jsonQuote (s : String) : String :=
  ⟨'"' :: (s.data.flatMap jsonEscapeChar) ++ ['"']⟩

/-- Render a list of byte values, comma separated. -/
def bytesCommaList (bs : List Nat) : String :=
  String.intercalate "," (bs.map (fun b => toString b))

/-- Model of `JSON.stringify`, fuelled by nesting depth.  Returns `none` when
`JSON.stringify` would throw (a `bigint` value).  Top-level `undefined` also
yields `none` (stringify returns no string there); inside arrays `undefined`
renders as `null`, inside objects the field is skipped, as in JavaScript. -/
def jsonStringifyGo : Nat → JSValue → Option String
  | 0, _ => none
  | _ + 1, vNull => some "null"
  | _ + 1, vUndef => none
  | _ + 1, vBool b => some (cond b "true" "false")
  | _ + 1, vNum finite _ repr => some (if finite then repr else "null")
  | _ + 1, vStr s => some (jsonQuote s)
  | _ + 1, vBigInt _ => none
  | _ + 1, vDate iso => some (jsonQuote iso)
  | _ + 1, vBuf bs =>
      some ("\x7b\"type\":\"Buffer\",\"data\":[" ++ bytesCommaList bs ++ "]\x7d")
  | fuel + 1, vArr xs => do
      let parts ← xs.mapM (fun x =>
        match x with
        | vUndef => some "null"
        | vBigInt _ => none
        | x => jsonStringifyGo fuel x)
      return "[" ++ String.intercalate "," parts ++ "]"
  | fuel + 1, vObj fs => do
      let parts ← (fs.filter (fun p => !isUndefJS p.2)).mapM (fun p =>
        match p.2 with
        | vBigInt _ => none
        | x => (jsonStringifyGo fuel x).map (fun s => jsonQuote p.1 ++ ":" ++ s))
      return "\x7b" ++ String.intercalate "," parts ++ "\x7d"

/-- `JSON.stringify` at a fixed large fuel (all values handled by the adapter
are of small depth). -/
def jsonStringify (v : JSValue) : Option String :=
  jsonStringifyGo 1000 v

/-- Model of JavaScript `String(v)` coercion, for the values that can reach
the serializer fallback. -/
def toStringJS : JSValue → String
  | vNull => "null"
  | vUndef => "undefined"
  | vBool b => cond b "true" "false"
  | vNum _ _ repr => repr
  | vStr s => s
  | vBigInt n => toString n
  | vDate iso => iso
  | vBuf _ => "[object Object]"
  | vArr _ => ""
  | vObj _ => "[object Object]"

/-! ## Argument coercion (`coerceArgsForPostgres`)

Textually identical in `BaseBunDriverAdapter` (src/index.ts, lines 250-286)
and `OptimizedBunPostgresDriverAdapter` (src/optimized-index.ts, lines
374-405); one embedding serves both. -/

/-- First escaping pass: `v.replace(/\\/g, '\\\\')`. -/
def escBackslash (s : String) : String :=
  ⟨s.data.flatMap (fun c => if c = '\\' then ['\\', '\\'] else [c])⟩

/-- Second escaping pass: `.replace(/"/g, '\\"')`. -/
def escQuote (s : String) : String :=
  ⟨s.data.flatMap (fun c => if c = '"' then ['\\', '"'] else [c])⟩

/-- `encodeItem` from `coerceArgsForPostgres`. -/
def encodeItem (v : JSValue) : String :=
  match v with
  | vNull => "NULL"
  | vUndef => "NULL"
  | vNum finite _ repr => if finite then repr else "NULL"
  | vBool b => cond b "true" "false"
  | vStr s => "\"" ++ escQuote (escBackslash s) ++ "\""
  | v =>
      match jsonStringify v with
      | some s => "\"" ++ escQuote (escBackslash s) ++ "\""
      | none => "NULL"

/-- `toPgArrayLiteral` from `coerceArgsForPostgres`. -/
def toPgArrayLiteral (arr : List JSValue) : String :=
  "\x7b" ++ String.intercalate "," (arr.map encodeItem) ++ "\x7d"

/-- Element test used by `isPrimitiveArray`:
`v === null || ['string','number','boolean'].includes(typeof v)`. -/
def isPrimElem (v : JSValue) : Bool :=
  match v with
  | vNull => true
  | vStr _ => true
  | vNum _ _ _ => true
  | vBool _ => true
  | _ => false

/-- `isPrimitiveArray` from `coerceArgsForPostgres` (the `Array.isArray`
conjunct is carried by the caller's pattern match). -/
def isPrimitiveArray (a : List JSValue) : Bool :=
  a.all isPrimElem

/-- `coerceArgsForPostgres` applied to one argument. -/
def coerceArgForPostgres (v : JSValue) : JSValue :=
  match v with
  | vArr xs => if isPrimitiveArray xs then vStr (toPgArrayLiteral xs) else vArr xs
  | v => v

/-- `coerceArgsForPostgres`. -/
def coerceArgsForPostgres (args : List JSValue) : List JSValue :=
  args.map coerceArgForPostgres

/-! ## Column types and value serialization -/

/-- The subset of `ColumnTypeEnum` from `@prisma/driver-adapter-utils` used by
the adapter. -/
inductive ColumnType where
  | unknownNumber | boolean | int32 | int64 | double
  | dateTime | date | uuid | text | json | bytes
  deriving DecidableEq, Repr

/-- `DATE_REGEX = /^\d{4}-\d{2}-\d{2}$/` as a matcher. -/
def matchesDateRegex (s : String) : Bool :=
  match s.data with
  | [a, b, c, d, h1, e, f, h2, g, i] =>
      a.isDigit && b.isDigit && c.isDigit && d.isDigit && h1 = '-' &&
      e.isDigit && f.isDigit && h2 = '-' && g.isDigit && i.isDigit
  | _ => false

/-- `DATETIME_REGEX = /^\d{4}-\d{2}-\d{2}T\d{2}:\d{2}:\d{2}/` as a matcher
(prefix match, rest of the string unconstrained). -/
def matchesDateTimeRegex (s : String) : Bool :=
  match s.data with
  | a :: b :: c :: d :: h1 :: e :: f :: h2 :: g :: i :: t ::
      j :: k :: c1 :: l :: m :: c2 :: n :: o :: _ =>
      a.isDigit && b.isDigit && c.isDigit && d.isDigit && h1 = '-' &&
      e.isDigit && f.isDigit && h2 = '-' && g.isDigit && i.isDigit &&
      t = 'T' && j.isDigit && k.isDigit && c1 = ':' && l.isDigit &&
      m.isDigit && c2 = ':' && n.isDigit && o.isDigit
  | _ => false

/-- Hexadecimal digit (case insensitive), for the UUID pattern. -/
def isHexDigit (c : Char) : Bool :=
  c.isDigit || ('a' ≤ c && c ≤ 'f') || ('A' ≤ c && c ≤ 'F')

/-- Split off `n` hex digits. -/
def takeHex : Nat → List Char → Option (List Char)
  | 0, cs => some cs
  | n + 1, c :: cs => if isHexDigit c then takeHex n cs else none
  | _ + 1, [] => none

/-- `UUID_REGEX = /^[0-9a-f]{8}-(...)-[0-9a-f]{12}$/i` as a matcher. -/
def matchesUuidRegex (s : String) : Bool :=
  (do
    let r ← takeHex 8 s.data
    let r ← match r with | '-' :: r => some r | _ => none
    let r ← takeHex 4 r
    let r ← match r with | '-' :: r => some r | _ => none
    let r ← takeHex 4 r
    let r ← match r with | '-' :: r => some r | _ => none
    let r ← takeHex 4 r
    let r ← match r with | '-' :: r => some r | _ => none
    let r ← takeHex 12 r
    match r with | [] => some () | _ => none).isSome

/-- JS whitespace for `String.prototype.trim` (the characters that occur in
this code's inputs). -/
def isJsSpace (c : Char) : Bool :=
  c = ' ' || c = '\t' || c = '\n' || c = '\x0d'

/-- `String.prototype.trim`. -/
def trimJS (s : String) : String :=
  ⟨((s.data.dropWhile isJsSpace).reverse.dropWhile isJsSpace).reverse⟩

/-- `isJsonishString` (identical in both adapter variants). -/
def isJsonishString (s : String) : Bool :=
  if s = "" then false
  else
    let t := trimJS s
    if t = "" then false
    else if t.startsWith "\x7b" || t.startsWith "[" then true
    else if t.startsWith "\"" && t.endsWith "\"" then true
    else false

/-- `inferColumnTypeFast` (identical in both adapter variants). -/
def inferColumnTypeFast (v : JSValue) : ColumnType :=
  match v with
  | vNull => .unknownNumber
  | vUndef => .unknownNumber
  | vBool _ => .boolean
  | vNum _ intLike _ => if intLike then .int32 else .double
  | vBigInt _ => .int64
  | vStr s =>
      if matchesDateTimeRegex s then .dateTime
      else if matchesDateRegex s then .date
      else if matchesUuidRegex s then .uuid
      else .text
  | vDate _ => .dateTime
  | vBuf _ => .bytes
  | vArr _ => .json
  | vObj _ => .json

/-- `ensureJsonString` (identical in both adapter variants). -/
def ensureJsonString (v : JSValue) : String :=
  match v with
  | vNull => "null"
  | vUndef => "null"
  | vStr s => if isJsonishString s then s else jsonQuote s
  | vNum finite _ repr => if finite then repr else "null"
  | vBool b => cond b "true" "false"
  | vDate iso => jsonQuote iso
  | vBuf bs => "[" ++ bytesCommaList bs ++ "]"
  | v =>
      match jsonStringify v with
      | some s => s
      | none => "null"

/-- `serializeValueFast` of `BaseBunDriverAdapter` (src/index.ts lines
696-738): arrays are returned as-is. -/
def serializeValueFastBase (v : JSValue) : JSValue :=
  match v with
  | vNull => vNull
  | vUndef => vUndef
  | vStr s => vStr s
  | vNum a b r => vNum a b r
  | vBool b => vBool b
  | vBigInt n => vStr (toString n)
  | vDate iso => vStr iso
  | vBuf bs => vBuf bs
  | vArr xs => vArr xs
  | v =>
      match jsonStringify v with
      | some s => vStr s
      | none => vStr (toStringJS v)

/-- `serializeValueFast` of `OptimizedBunPostgresDriverAdapter`
(src/optimized-index.ts lines 807-841): it has no array branch, so arrays fall
through to `JSON.stringify`. -/
def serializeValueFastOpt (v : JSValue) : JSValue :=
  match v with
  | vNull => vNull
  | vUndef => vUndef
  | vStr s => vStr s
  | vNum a b r => vNum a b r
  | vBool b => vBool b
  | vBigInt n => vStr (toString n)
  | vDate iso => vStr iso
  | vBuf bs => vBuf bs
  | v =>
      match jsonStringify v with
      | some s => vStr s
      | none => vStr (toStringJS v)

/-- A result row: ordered `(columnName, value)` fields, as a JS object. -/
def Row := List (String × JSValue)

/-- JS property access `row[name]` (absent property reads as `undefined`). -/
def getProp (row : Row) (name : String) : JSValue :=
  match row.lookup name with
  | some v => v
  | none => JSValue.vUndef

/-- One step of the row scan of the base `determineColumnTypes`
(src/index.ts lines 548-590): returns `(hasArray, hasOtherObjects)`, breaking
on the first array. -/
def scanColumnBase (name : String) : List Row → Bool → Bool × Bool
  | [], hasOther => (false, hasOther)
  | r :: rs, hasOther =>
      match getProp r name with
      | vNull => scanColumnBase name rs hasOther
      | vUndef => scanColumnBase name rs hasOther
      | vArr _ => (true, hasOther)
      | v =>
          if typeofJS v = "object" && !isDateJS v && !isBufferJS v then
            scanColumnBase name rs true
          else
            scanColumnBase name rs hasOther

/-- `determineColumnTypes` of `BaseBunDriverAdapter`: an array anywhere in the
column yields the opaque `UnknownNumber` tag; other objects yield `Json`;
otherwise the type is inferred from row 0. -/
def determineColumnTypesBase (result : List Row) (columnNames : List String) :
    List ColumnType :=
  columnNames.map (fun name =>
    let (hasArray, hasOther) := scanColumnBase name result false
    if hasArray then .unknownNumber
    else if hasOther then .json
    else inferColumnTypeFast (getProp (result.headD []) name))

/-- Row scan of the optimized `determineColumnTypes`
(src/optimized-index.ts lines 843-868): any non-Date non-Buffer object
(including an array) or JSON-looking string marks the column as JSON. -/
def scanColumnOpt (name : String) : List Row → Bool
  | [] => false
  | r :: rs =>
      match getProp r name with
      | vNull => scanColumnOpt name rs
      | vUndef => scanColumnOpt name rs
      | vStr s => if isJsonishString (trimJS s) then true else scanColumnOpt name rs
      | v =>
          if typeofJS v = "object" then
            if isDateJS v || isBufferJS v then scanColumnOpt name rs else true
          else scanColumnOpt name rs

/-- `determineColumnTypes` of `OptimizedBunPostgresDriverAdapter`. -/
def determineColumnTypesOpt (result : List Row) (columnNames : List String) :
    List ColumnType :=
  columnNames.map (fun name =>
    if scanColumnOpt name result then ColumnType.json
    else inferColumnTypeFast (getProp (result.headD []) name))

/-- The per-cell processing of `queryRaw`'s row loop (both variants):
JSON-typed columns go through `ensureJsonString`, everything else through
`serializeValueFast`. -/
def processCell (serialize : JSValue → JSValue) (ty : ColumnType) (v : JSValue) :
    JSValue :=
  if ty = .json then vStr (ensureJsonString v) else serialize v

/-- The `queryRaw` result-set shape. -/
structure SqlResultSet where
  columnNames : List String
  columnTypes : List ColumnType
  rows : List (List JSValue)

/-- The result-set construction of `queryRaw` (shared row loop shape of both
variants and of their transaction `queryRaw`s), parameterized by the variant's
`determineColumnTypes` and `serializeValueFast`. -/
def processResultWith (determine : List Row → List String → List ColumnType)
    (serialize : JSValue → JSValue) (result : List Row) : SqlResultSet :=
  match result with
  | [] => ⟨[], [], []⟩
  | firstRow :: _ =>
      let columnNames := firstRow.map (·.1)
      let columnTypes := determine result columnNames
      let rows := result.map (fun row =>
        (columnNames.zip columnTypes).map (fun p =>
          processCell serialize p.2 (getProp row p.1)))
      ⟨columnNames, columnTypes, rows⟩

/-- `queryRaw` row processing of `BaseBunDriverAdapter` (pooled path and
transaction path run this same code). -/
def processResultBase : List Row → SqlResultSet :=
  processResultWith determineColumnTypesBase serializeValueFastBase

/-- `queryRaw` row processing of `OptimizedBunPostgresDriverAdapter` (pooled
path and transaction path run this same code). -/
def processResultOpt : List Row → SqlResultSet :=
  processResultWith determineColumnTypesOpt serializeValueFastOpt

/-! ## Decimal digits -/

/-- The decimal digit characters. -/
def digitChar : Nat → Char
  | 0 => '0' | 1 => '1' | 2 => '2' | 3 => '3' | 4 => '4'
  | 5 => '5' | 6 => '6' | 7 => '7' | 8 => '8' | _ => '9'

/-- Numeric value of a digit character. -/
def digitVal (c : Char) : Nat := c.toNat - 48

/-- Decimal rendering of a natural number (`String(n)` in JS), fuelled. -/
def natDigitsGo : Nat → Nat → List Char
  | 0, _ => []
  | fuel + 1, n =>
      if n < 10 then [digitChar n]
      else natDigitsGo fuel (n / 10) ++ [digitChar (n % 10)]

/-- Decimal rendering of a natural number as a character list. -/
def natDigits (n : Nat) : List Char := natDigitsGo (n + 1) n

/-- Value of a digit run (how `Number(match[1])` reads it). -/
def digitsVal (ds : List Char) : Nat :=
  ds.foldl (fun a c => a * 10 + digitVal c) 0

/-- The interpolation marker `'${' + i + '}'` as a character list. -/
def markerChars (i : Nat) : List Char :=
  '$' :: '\x7b' :: natDigits i ++ ['\x7d']

/-! ## The `/\$\{(\d+)\}/g` scan (argOrder extraction)

`buildTemplate` extracts `argOrder` by scanning the rewritten SQL for
`${digits}` occurrences.  The scan is modelled by a character-level state
machine equivalent to the JavaScript global-regex loop. -/

/-- State of the marker scan. -/
inductive EmState where
  | start
  | sawDollar
  | sawBrace (acc : List Char)

/-- One character step of the marker scan; emits the marker's index when a
`${digits}` occurrence completes. -/
def emStep : EmState → Char → EmState × Option Nat
  | .start, c => if c = '$' then (.sawDollar, none) else (.start, none)
  | .sawDollar, c =>
      if c = '\x7b' then (.sawBrace [], none)
      else if c = '$' then (.sawDollar, none)
      else (.start, none)
  | .sawBrace acc, c =>
      if c.isDigit then (.sawBrace (acc ++ [c]), none)
      else if c = '\x7d' ∧ acc ≠ [] then (.start, some (digitsVal acc))
      else if c = '$' then (.sawDollar, none)
      else (.start, none)

/-- Run the marker scan. -/
def emScan : EmState → List Char → EmState × List Nat
  | σ, [] => (σ, [])
  | σ, c :: cs =>
      let s := emStep σ c
      let r := emScan s.1 cs
      (r.1, s.2.toList ++ r.2)

/-- All `${digits}` marker values found in a text, leftmost first (the
`/\$\{(\d+)\}/g` exec loop of `buildTemplate`). -/
def extractMarkers (cs : List Char) : List Nat :=
  (emScan .start cs).2

/-- The text `cs` contains a `${digits}` substring. -/
def HasMarkerSub (cs : List Char) : Prop :=
  ∃ pre ds post, ds ≠ [] ∧ (∀ c ∈ ds, c.isDigit) ∧
    cs = pre ++ '$' :: '\x7b' :: (ds ++ '\x7d' :: post)

/-- `templateSql.split(/\$\{\d+\}/)`: the fragments between markers (with
leading/trailing empty fragments, as in JavaScript). -/
def markerSplitGo : EmState → List Char → List Char → List Char → List (List Char)
  | _, part, limbo, [] => [part ++ limbo]
  | σ, part, limbo, c :: cs =>
      match σ with
      | .start =>
          if c = '$' then markerSplitGo .sawDollar part [c] cs
          else markerSplitGo .start (part ++ [c]) [] cs
      | .sawDollar =>
          if c = '\x7b' then markerSplitGo (.sawBrace []) part (limbo ++ [c]) cs
          else if c = '$' then markerSplitGo .sawDollar (part ++ limbo) [c] cs
          else markerSplitGo .start (part ++ limbo ++ [c]) [] cs
      | .sawBrace acc =>
          if c.isDigit then
            markerSplitGo (.sawBrace (acc ++ [c])) part (limbo ++ [c]) cs
          else if c = '\x7d' && !acc.isEmpty then
            part :: markerSplitGo .start [] [] cs
          else if c = '$' then markerSplitGo .sawDollar (part ++ limbo) [c] cs
          else markerSplitGo .start (part ++ limbo ++ [c]) [] cs

/-- `templateSql.split(/\$\{\d+\}/)`. -/
def markerSplit (cs : List Char) : List (List Char) :=
  markerSplitGo .start [] [] cs

/-! ## `replaceAll` / `replace` on character lists -/

/-- JavaScript `String.prototype.replaceAll` with a literal pattern
(non-overlapping, left to right), fuelled by text length. -/
def replaceListGo (pat repl : List Char) : Nat → List Char → List Char
  | 0, cs => cs
  | _ + 1, [] => []
  | fuel + 1, c :: cs =>
      if pat.isPrefixOf (c :: cs) then
        repl ++ replaceListGo pat repl fuel ((c :: cs).drop pat.length)
      else c :: replaceListGo pat repl fuel cs

/-- `replaceAll` for a literal pattern. -/
def replaceList (pat repl cs : List Char) : List Char :=
  replaceListGo pat repl cs.length cs

/-- JavaScript `String.prototype.replace` with a literal pattern (first
occurrence only). -/
def replaceFirst (pat repl : List Char) : List Char → List Char
  | [] => []
  | c :: cs =>
      if pat.isPrefixOf (c :: cs) then repl ++ (c :: cs).drop pat.length
      else c :: replaceFirst pat repl cs

/-! ## The `$n` translator -/

/-- The literal pattern `'$' + n`. -/
def dollarPat (n : Nat) : List Char := '$' :: natDigits n

/-- The descending `replaceAll` loop of `replaceDollarPlaceholders`
(src/optimized-index.ts lines 462-470) and of the Postgres branch of
`convertParameterPlaceholders` (src/index.ts lines 855-875): step `k + 1`
replaces `$(k+1)` by `${k}`, iterating from `n = argCount` down to `1`. -/
def replaceDollarAux : Nat → List Char → List Char
  | 0, t => t
  | k + 1, t => replaceDollarAux k (replaceList (dollarPat (k + 1)) (markerChars k) t)

/-- `replaceDollarPlaceholders` of the optimized adapter. -/
def replaceDollarPlaceholders (sql : String) (argCount : Nat) : String :=
  ⟨replaceDollarAux argCount sql.data⟩

/-- `/\$\d+/.test(sql)`. -/
def hasDollarNum : List Char → Bool
  | '$' :: c :: cs => if c.isDigit then true else hasDollarNum (c :: cs)
  | _ :: cs => hasDollarNum cs
  | [] => false

/-! ## The scanner-guarded `?` translator (optimized adapter)

`replaceQuestionPlaceholders` (src/optimized-index.ts lines 472-588).  The
index/`lastIndex` slicing of the source is rendered by emitting each consumed
character (or marker) directly; the concatenation of the emitted pieces equals
the `result` string built by the source. -/

/-- Scanner context (the mutually exclusive `inSingle`/`inDouble`/
`inLineComment`/`inBlockComment`/`dollarTag` flags of the source). -/
inductive ScanState where
  | normal | inSingle | inDouble | inLine | inBlock
  | inDollar (tag : List Char)

/-- `[A-Za-z0-9_]`, the dollar-quote tag character class. -/
def isWordChar (c : Char) : Bool := c.isAlphanum || c = '_'

/-- The scanner loop: returns the rewritten text and the number of `?`
placeholders replaced. -/
def rqpGo : Nat → ScanState → Nat → Nat → List Char → List Char × Nat
  | 0, _, replaced, _, cs => (cs, replaced)
  | _ + 1, _, replaced, _, [] => ([], replaced)
  | fuel + 1, .inLine, replaced, argCount, c :: cs =>
      let st := if c = '\n' then ScanState.normal else .inLine
      let r := rqpGo fuel st replaced argCount cs
      (c :: r.1, r.2)
  | fuel + 1, .inBlock, replaced, argCount, c :: cs =>
      if c = '*' ∧ cs.head? = some '/' then
        let r := rqpGo fuel .normal replaced argCount cs.tail
        ('*' :: '/' :: r.1, r.2)
      else
        let r := rqpGo fuel .inBlock replaced argCount cs
        (c :: r.1, r.2)
  | fuel + 1, .inDollar tag, replaced, argCount, c :: cs =>
      if tag.isPrefixOf (c :: cs) then
        let r := rqpGo fuel .normal replaced argCount ((c :: cs).drop tag.length)
        (tag ++ r.1, r.2)
      else
        let r := rqpGo fuel (.inDollar tag) replaced argCount cs
        (c :: r.1, r.2)
  | fuel + 1, .inSingle, replaced, argCount, c :: cs =>
      if c = '\x27' ∧ cs.head? = some '\x27' then
        let r := rqpGo fuel .inSingle replaced argCount cs.tail
        ('\x27' :: '\x27' :: r.1, r.2)
      else if c = '\x27' then
        let r := rqpGo fuel .normal replaced argCount cs
        (c :: r.1, r.2)
      else
        let r := rqpGo fuel .inSingle replaced argCount cs
        (c :: r.1, r.2)
  | fuel + 1, .inDouble, replaced, argCount, c :: cs =>
      if c = '"' ∧ cs.head? = some '"' then
        let r := rqpGo fuel .inDouble replaced argCount cs.tail
        ('"' :: '"' :: r.1, r.2)
      else if c = '"' then
        let r := rqpGo fuel .normal replaced argCount cs
        (c :: r.1, r.2)
      else
        let r := rqpGo fuel .inDouble replaced argCount cs
        (c :: r.1, r.2)
  | fuel + 1, .normal, replaced, argCount, c :: cs =>
      if c = '\x27' then
        let r := rqpGo fuel .inSingle replaced argCount cs
        (c :: r.1, r.2)
      else if c = '"' then
        let r := rqpGo fuel .inDouble replaced argCount cs
        (c :: r.1, r.2)
      else if c = '-' ∧ cs.head? = some '-' then
        let r := rqpGo fuel .inLine replaced argCount cs.tail
        ('-' :: '-' :: r.1, r.2)
      else if c = '/' ∧ cs.head? = some '*' then
        let r := rqpGo fuel .inBlock replaced argCount cs.tail
        ('/' :: '*' :: r.1, r.2)
      else if c = '$' ∧ (cs.drop (cs.takeWhile isWordChar).length).head? = some '$' then
        let mid := cs.takeWhile isWordChar
        let tag := '$' :: mid ++ ['$']
        let r := rqpGo fuel (.inDollar tag) replaced argCount (cs.drop (mid.length + 1))
        (tag ++ r.1, r.2)
      else if c = '?' ∧ replaced < argCount then
        let r := rqpGo fuel .normal (replaced + 1) argCount cs
        (markerChars replaced ++ r.1, r.2)
      else
        let r := rqpGo fuel .normal replaced argCount cs
        (c :: r.1, r.2)

/-- `replaceQuestionPlaceholders`: `null` when the number of replaced
placeholders differs from the declared argument count at the end of the
scan. -/
def replaceQuestionPlaceholders (sql : String) (argCount : Nat) : Option String :=
  let r := rqpGo sql.data.length .normal 0 argCount sql.data
  if r.2 ≠ argCount then none else some ⟨r.1⟩

/-! ## Templates and execution plans -/

/-- `replacePlaceholders` of the optimized adapter (src/optimized-index.ts
lines 446-460). -/
def replacePlaceholdersOpt (sql : String) (argCount : Nat) : Option String :=
  if argCount = 0 then some sql
  else if hasDollarNum sql.data then some (replaceDollarPlaceholders sql argCount)
  else if sql.data.contains '?' then replaceQuestionPlaceholders sql argCount
  else none

/-- A compiled template (`{strings, paramCount, argOrder}`). -/
structure CompiledTemplate where
  strings : List String
  paramCount : Nat
  argOrder : List Nat

/-- `createTemplateStrings` (both variants): a lone fragment gets an empty
trailing fragment. -/
def createTemplateStrings (parts : List String) : List String :=
  if parts.length = 1 then parts ++ [""] else parts

/-- `buildTemplate` of the optimized adapter (src/optimized-index.ts lines
429-444). -/
def buildTemplateOpt (sql : String) (argCount : Nat) : Option CompiledTemplate :=
  match replacePlaceholdersOpt sql argCount with
  | none => none
  | some templateSql =>
      let parts := (markerSplit templateSql.data).map (fun p => (⟨p⟩ : String))
      let strings := createTemplateStrings parts
      let argOrder := extractMarkers templateSql.data
      some ⟨strings, argCount, argOrder⟩

/-- The shared template cache, keyed by the literal SQL string. -/
abbrev TemplateCache := List (String × CompiledTemplate)

/-- `getOrCreateTemplate` of the optimized adapter (src/optimized-index.ts
lines 407-427): rebuilds on a missing entry or a changed argument count, and
returns `none` (the fallback signal) when the translator recognizes no
placeholders. -/
def getOrCreateTemplateOpt (cache : TemplateCache) (sql : String) (argCount : Nat) :
    TemplateCache × Option CompiledTemplate :=
  if argCount = 0 then (cache, none)
  else
    let rebuild :=
      match buildTemplateOpt sql argCount with
      | none => (cache, none)
      | some built => ((sql, built) :: cache, some built)
    match List.lookup sql cache with
    | some cached => if cached.paramCount = argCount then (cache, some cached) else rebuild
    | none => rebuild

/-- What the host client is invoked with: template fragments and interpolated
values. -/
structure HostCall where
  strings : List String
  values : List JSValue

/-- The argument expansion `cached.argOrder?.length ? argOrder.map(i =>
args[i]) : args` (an out-of-range read yields `undefined`, as in JS). -/
def expandArgs (argOrder : List Nat) (args : List JSValue) : List JSValue :=
  if argOrder.length ≠ 0 then
    argOrder.map (fun i => (args.get? i).getD JSValue.vUndef)
  else args

/-- `executeQueryOptimized` of the optimized adapter (src/optimized-index.ts
lines 334-360), reduced to the host call it performs
(`executeTransactionQueryOptimized`, lines 739-763, performs the identical
translation and coercion against the reserved connection). -/
def executeQueryPlanOpt (cache : TemplateCache) (sql : String) (args : List JSValue) :
    TemplateCache × HostCall :=
  if args.isEmpty then (cache, ⟨createTemplateStrings [sql], []⟩)
  else
    match getOrCreateTemplateOpt cache sql args.length with
    | (cache', some tpl) =>
        (cache', ⟨tpl.strings, coerceArgsForPostgres (expandArgs tpl.argOrder args)⟩)
    | (cache', none) =>
        (cache', ⟨createTemplateStrings [sql], coerceArgsForPostgres args⟩)

/-- `String.prototype.includes` for a literal pattern. -/
def containsSub (pat : List Char) : List Char → Bool
  | [] => pat.isEmpty
  | c :: cs => pat.isPrefixOf (c :: cs) || containsSub pat cs

/-- `hasParameterPlaceholders` of the base Postgres adapter (src/index.ts
lines 849-853): `sql.includes("$1")`. -/
def hasParameterPlaceholdersPgBase (sql : String) : Bool :=
  containsSub "$1".data sql.data

/-- The sequential-`replace` loop converting `?` placeholders (the MySQL and
SQLite `convertParameterPlaceholders` of src/index.ts lines 922-932 and
979-989, and the `?` fallback of the base Postgres variant): step `i`
replaces the first remaining `?` by `${i}`. -/
def naiveQAux : Nat → Nat → List Char → List Char
  | 0, _, t => t
  | k + 1, i, t => naiveQAux k (i + 1) (replaceFirst ['?'] (markerChars i) t)

/-- `convertParameterPlaceholders` of the base MySQL/SQLite adapters. -/
def convertParameterPlaceholdersMySQL (sql : String) (paramCount : Nat) : String :=
  ⟨naiveQAux paramCount 0 sql.data⟩

/-- `convertParameterPlaceholders` of the base Postgres adapter (src/index.ts
lines 855-875). -/
def convertParameterPlaceholdersPgBase (sql : String) (paramCount : Nat) : String :=
  if containsSub "$1".data sql.data then
    ⟨replaceDollarAux paramCount sql.data⟩
  else
    ⟨naiveQAux paramCount 0 sql.data⟩

/-- `executeQueryOptimized` of `BaseBunDriverAdapter` for the Postgres
provider (src/index.ts lines 184-233), reduced to the host call it performs.
A stale cache entry (same SQL, different `paramCount`) is reused when the SQL
shows no placeholders, exactly as in the source. -/
def executeQueryPlanBasePg (cache : TemplateCache) (sql : String) (args : List JSValue) :
    TemplateCache × HostCall :=
  if args.isEmpty then (cache, ⟨createTemplateStrings [sql], []⟩)
  else
    let cached0 := List.lookup sql cache
    let rebuilt :=
      if (cached0.isNone || (cached0.map (·.paramCount) ≠ some args.length)) &&
          hasParameterPlaceholdersPgBase sql then
        let templateSql := convertParameterPlaceholdersPgBase sql args.length
        let parts := (markerSplit templateSql.data).map (fun p => (⟨p⟩ : String))
        let built : CompiledTemplate :=
          ⟨createTemplateStrings parts, args.length, extractMarkers templateSql.data⟩
        ((sql, built) :: cache, some built)
      else (cache, cached0)
    match rebuilt with
    | (cache', some tpl) =>
        (cache', ⟨tpl.strings, coerceArgsForPostgres (expandArgs tpl.argOrder args)⟩)
    | (cache', none) =>
        (cache', ⟨createTemplateStrings [sql], coerceArgsForPostgres args⟩)

/-! ## Transaction lifecycle

Embedding of the transaction object returned by `startTransaction`
(src/optimized-index.ts lines 590-737 and src/index.ts lines 372-546) as a
sequential state machine.  The only transaction-local mutable state is the
pair of flags `finished` / `aborted`; every host interaction is recorded as an
event.  Host calls that may fail carry an explicit success flag on the
operation. -/

/-- Observable effects of a transaction operation. -/
inductive TxEvent where
  /-- A query/execute statement sent on the reserved connection. -/
  | querySql
  /-- `COMMIT` sent on the reserved connection. -/
  | commitSql
  /-- `ROLLBACK` sent on the reserved connection. -/
  | rollbackSql
  /-- `reserved.release()` (release of the reserved connection). -/
  | resRelease
  /-- `this.releaseConnection(connection)` (optimized) /
  `connection.end()` (base). -/
  | connRelease
  deriving DecidableEq, Repr

/-- The transaction-local flags. -/
structure TxState where
  finished : Bool
  aborted : Bool
  deriving DecidableEq, Repr

/-- The state of a freshly begun transaction. -/
def txInit : TxState := ⟨false, false⟩

/-- Operations a caller can perform on the transaction, with the success of
the underlying host call. -/
inductive TxOp where
  /-- `queryRaw`/`executeRaw` through `runQuery`; `hostOk = false` means the
  host call throws. -/
  | query (hostOk : Bool)
  /-- `commit()`; `hostOk` is the outcome of the `COMMIT` statement. -/
  | commit (hostOk : Bool)
  /-- `rollback()`; `hostOk` is the outcome of the `ROLLBACK` statement. -/
  | rollback (hostOk : Bool)
  deriving DecidableEq, Repr

/-- Result of one operation: next state, events, and the error (if any) the
call throws to the caller. -/
structure TxStepResult where
  state : TxState
  events : List TxEvent
  error : Option String

/-- `finalize` (both variants): a no-op once `finished`; otherwise issues
`COMMIT` or `ROLLBACK` (rollback errors are swallowed), then — in a `finally`
— releases the reserved connection and the pooled connection.  A failing
`COMMIT` propagates after the releases. -/
def txFinalize (isCommit : Bool) (hostOk : Bool) (s : TxState) : TxStepResult :=
  if s.finished then ⟨s, [], none⟩
  else
    let s' : TxState := ⟨true, s.aborted⟩
    if isCommit then
      ⟨s', [.commitSql, .resRelease, .connRelease], if hostOk then none else some "commit failed"⟩
    else
      ⟨s', [.rollbackSql, .resRelease, .connRelease], none⟩

/-- `runQuery` (both variants): rejects after finalize, marks the transaction
aborted when the host call throws. -/
def txQuery (hostOk : Bool) (s : TxState) : TxStepResult :=
  if s.finished then ⟨s, [], some "Transaction is already closed"⟩
  else if hostOk then ⟨s, [.querySql], none⟩
  else ⟨⟨s.finished, true⟩, [.querySql], some "query failed"⟩

/-- `commit` of the optimized adapter (src/optimized-index.ts lines 726-732):
an aborted transaction is rolled back and the commit itself throws. -/
def txCommitOpt (hostOk : Bool) (s : TxState) : TxStepResult :=
  if s.aborted then
    let f := txFinalize false hostOk s
    ⟨f.state, f.events, some "Transaction rolled back due to a previous error"⟩
  else txFinalize true hostOk s

/-- `commit` of the base adapter (src/index.ts lines 525-541): silently
returns once finished; otherwise like the optimized one, with a commit
failure chased by a (no-op) rollback finalize before rethrowing. -/
def txCommitBase (hostOk : Bool) (s : TxState) : TxStepResult :=
  if s.finished then ⟨s, [], none⟩
  else if s.aborted then
    let f := txFinalize false hostOk s
    ⟨f.state, f.events, some "Transaction rolled back due to a previous error"⟩
  else
    let f := txFinalize true hostOk s
    match f.error with
    | some e =>
        let g := txFinalize false true f.state
        ⟨g.state, f.events ++ g.events, some e⟩
    | none => f

/-- `rollback` (both variants): `finalize("rollback")`, never throws. -/
def txRollback (hostOk : Bool) (s : TxState) : TxStepResult :=
  txFinalize false hostOk s

/-- Dispatch one operation, optimized adapter. -/
def txStepOpt : TxOp → TxState → TxStepResult
  | .query k, s => txQuery k s
  | .commit k, s => txCommitOpt k s
  | .rollback k, s => txRollback k s

/-- Dispatch one operation, base adapter. -/
def txStepBase : TxOp → TxState → TxStepResult
  | .query k, s => txQuery k s
  | .commit k, s => txCommitBase k s
  | .rollback k, s => txRollback k s

/-- Run a sequence of operations, collecting each operation's events and
error. -/
def txRun (step : TxOp → TxState → TxStepResult) :
    TxState → List TxOp → TxState × List (List TxEvent × Option String)
  | s, [] => (s, [])
  | s, op :: ops =>
      let r := step op s
      let rest := txRun step r.state ops
      (rest.1, (r.events, r.error) :: rest.2)

/-- All events of a run, in order. -/
def txTrace (step : TxOp → TxState → TxStepResult) (s : TxState) (ops : List TxOp) :
    List TxEvent :=
  ((txRun step s ops).2.map (·.1)).flatten

/-- Number of occurrences of an event in a trace. -/
def countEv (e : TxEvent) (evs : List TxEvent) : Nat :=
  evs.countP (fun x => x = e)

/-- The operation is a `queryRaw`/`executeRaw` call. -/
def isQueryOp : TxOp → Bool
  | .query _ => true
  | _ => false

/-! ## Spec-side renderings used for refinement statements -/

/-- The array-element rendering in the words of the specification: strings
double-quote-wrapped with backslash and quote escaping; finite numbers as-is
and non-finite numbers as `NULL`; booleans as unquoted `true`/`false`;
`null`/`undefined` as unquoted `NULL`.  Non-primitive elements do not occur
in a primitive array. -/
def specElemText : JSValue → String
  | vNull => "NULL"
  | vUndef => "NULL"
  | vStr s =>
      "\"" ++ ⟨s.data.flatMap (fun c =>
        if c = '\\' then ['\\', '\\']
        else if c = '"' then ['\\', '"']
        else [c])⟩ ++ "\""
  | vNum finite _ repr => if finite then repr else "NULL"
  | vBool b => if b then "true" else "false"
  | _ => ""

/-- The brace-delimited array-literal text in the words of the specification:
elements comma-joined inside braces. -/
def specPgArrayLiteral (xs : List JSValue) : String :=
  "\x7b" ++ String.intercalate "," (xs.map specElemText) ++ "\x7d"

/-- The value is a raw primitive array (the shape the coercer must never let
through to the host client on the Postgres path). -/
def isPrimArrayVal : JSValue → Bool
  | vArr xs => isPrimitiveArray xs
  | _ => false

/-! ## Supporting lemmas -/

theorem escQuote_escBackslash (s : String) :
    escQuote (escBackslash s) =
      ⟨s.data.flatMap (fun c =>
        if c = '\\' then ['\\', '\\']
        else if c = '"' then ['\\', '"']
        else [c])⟩ := by
  unfold escQuote escBackslash
  congr 1
  induction s.data with
  | nil => rfl
  | cons c cs ih =>
      simp only [List.flatMap_cons]
      rw [List.flatMap_append, ih]
      congr 1
      by_cases hb : c = '\\'
      · subst hb; rfl
      · by_cases hq : c = '"'
        · subst hq; simp
        · simp [hb, hq]

theorem encodeItem_spec (v : JSValue) (h : isPrimElem v = true) :
    encodeItem v = specElemText v := by
  cases v with
  | vNull => rfl
  | vStr s =>
      show "\"" ++ escQuote (escBackslash s) ++ "\"" = _
      rw [escQuote_escBackslash]; rfl
  | vNum finite intLike repr => rfl
  | vBool b => cases b <;> rfl
  | _ => simp [isPrimElem] at h

theorem toPgArrayLiteral_spec (xs : List JSValue) (h : isPrimitiveArray xs = true) :
    toPgArrayLiteral xs = specPgArrayLiteral xs := by
  unfold toPgArrayLiteral specPgArrayLiteral
  have hm : List.map encodeItem xs = List.map specElemText xs :=
    List.map_congr_left (fun v hv => encodeItem_spec v (List.all_eq_true.mp h v hv))
  rw [hm]

theorem digitVal_digitChar {d : Nat} (h : d < 10) : digitVal (digitChar d) = d := by
  interval_cases d <;> rfl

theorem digitChar_isDigit (d : Nat) : (digitChar d).isDigit = true := by
  rcases d with _|_|_|_|_|_|_|_|_|_ <;> rfl

theorem natDigitsGo_spec :
    ∀ fuel n, n < fuel →
      natDigitsGo fuel n ≠ [] ∧ (∀ c ∈ natDigitsGo fuel n, c.isDigit = true) ∧
      digitsVal (natDigitsGo fuel n) = n := by
  intro fuel
  induction fuel with
  | zero => intro n h; omega
  | succ fuel ih =>
      intro n h
      by_cases h10 : n < 10
      · refine ⟨by simp [natDigitsGo, h10], ?_, ?_⟩
        · intro c hc
          simp [natDigitsGo, h10] at hc
          subst hc; exact digitChar_isDigit n
        · simp [natDigitsGo, h10, digitsVal, digitVal_digitChar h10]
      · have hdiv : n / 10 < fuel := by
          have h1 : n / 10 < n := Nat.div_lt_self (by omega) (by omega)
          omega
        obtain ⟨hne, hdig, hval⟩ := ih (n / 10) hdiv
        have hstep : natDigitsGo (fuel + 1) n =
            natDigitsGo fuel (n / 10) ++ [digitChar (n % 10)] := by
          simp [natDigitsGo, h10]
        refine ⟨by simp [hstep], ?_, ?_⟩
        · intro c hc
          rw [hstep] at hc
          rcases List.mem_append.mp hc with hc | hc
          · exact hdig c hc
          · simp at hc; subst hc; exact digitChar_isDigit (n % 10)
        · rw [hstep]
          unfold digitsVal at hval ⊢
          rw [List.foldl_append, hval]
          simp [digitVal_digitChar (Nat.mod_lt n (by omega))]
          omega

theorem natDigits_ne_nil (n : Nat) : natDigits n ≠ [] :=
  (natDigitsGo_spec (n + 1) n (by omega)).1

theorem natDigits_all_digit (n : Nat) : ∀ c ∈ natDigits n, c.isDigit = true :=
  (natDigitsGo_spec (n + 1) n (by omega)).2.1

theorem digitsVal_natDigits (n : Nat) : digitsVal (natDigits n) = n :=
  (natDigitsGo_spec (n + 1) n (by omega)).2.2

theorem isDigit_ne_special {c : Char} (h : c.isDigit = true) :
    c ≠ '$' ∧ c ≠ '\x7b' ∧ c ≠ '\x7d' ∧ c ≠ '?' := by
  refine ⟨?_, ?_, ?_, ?_⟩ <;> intro he <;> subst he <;> exact absurd h (by decide)

theorem emStep_dollar (σ : EmState) : emStep σ '$' = (.sawDollar, none) := by
  cases σ with
  | start => rfl
  | sawDollar => rfl
  | sawBrace acc => simp [emStep]

theorem emStep_question (σ : EmState) : emStep σ '?' = (.start, none) := by
  cases σ with
  | start => rfl
  | sawDollar => rfl
  | sawBrace acc => simp [emStep]

theorem emStep_start_digit {c : Char} (h : c.isDigit = true) :
    emStep .start c = (.start, none) := by
  simp [emStep, (isDigit_ne_special h).1]

theorem emStep_sawDollar_digit {c : Char} (h : c.isDigit = true) :
    emStep .sawDollar c = (.start, none) := by
  simp [emStep, (isDigit_ne_special h).1, (isDigit_ne_special h).2.1]

theorem emStep_sawBrace_digit {c : Char} (acc : List Char) (h : c.isDigit = true) :
    emStep (.sawBrace acc) c = (.sawBrace (acc ++ [c]), none) := by
  simp [emStep, h]

theorem emScan_append (σ : EmState) (a b : List Char) :
    emScan σ (a ++ b) =
      ((emScan (emScan σ a).1 b).1, (emScan σ a).2 ++ (emScan (emScan σ a).1 b).2) := by
  induction a generalizing σ with
  | nil => simp [emScan]
  | cons c cs ih =>
      simp only [List.cons_append, emScan, List.append_eq]
      rw [ih]
      simp [List.append_assoc]

theorem emScan_sawBrace_digits (ds : List Char) (hd : ∀ c ∈ ds, c.isDigit = true) :
    ∀ acc rest, emScan (.sawBrace acc) (ds ++ rest) = emScan (.sawBrace (acc ++ ds)) rest := by
  induction ds with
  | nil => intro acc rest; simp
  | cons c cs ih =>
      intro acc rest
      have hc : c.isDigit = true := hd c (by simp)
      simp only [List.cons_append, emScan, emStep_sawBrace_digit acc hc, List.append_eq]
      rw [ih (fun x hx => hd x (by simp [hx])) (acc ++ [c]) rest]
      simp

theorem emScan_start_digits (ds : List Char) (hd : ∀ c ∈ ds, c.isDigit = true) :
    ∀ rest, emScan .start (ds ++ rest) = emScan .start rest := by
  induction ds with
  | nil => intro rest; simp
  | cons c cs ih =>
      intro rest
      have hc : c.isDigit = true := hd c (by simp)
      simp only [List.cons_append, emScan, emStep_start_digit hc, List.append_eq]
      rw [ih (fun x hx => hd x (by simp [hx])) rest]
      simp

theorem emScan_digit_run (σ : EmState) (ds rest : List Char) (hne : ds ≠ [])
    (hd : ∀ c ∈ ds, c.isDigit = true) :
    emScan σ ('$' :: '\x7b' :: (ds ++ '\x7d' :: rest)) =
      ((emScan .start rest).1, digitsVal ds :: (emScan .start rest).2) := by
  simp only [emScan, emStep_dollar]
  have h2 : emStep EmState.sawDollar '\x7b' = (.sawBrace [], none) := rfl
  rw [h2]
  simp only
  rw [emScan_sawBrace_digits ds hd [] ('\x7d' :: rest)]
  have h3 : emStep (.sawBrace ([] ++ ds)) '\x7d' = (.start, some (digitsVal ds)) := by
    simp only [List.nil_append]
    simp [emStep, hne]
  simp only [emScan, h3]
  simp

theorem emScan_marker (σ : EmState) (i : Nat) (rest : List Char) :
    emScan σ (markerChars i ++ rest) =
      ((emScan .start rest).1, i :: (emScan .start rest).2) := by
  have : markerChars i ++ rest = '$' :: '\x7b' :: (natDigits i ++ '\x7d' :: rest) := by
    simp [markerChars]
  rw [this, emScan_digit_run σ (natDigits i) rest (natDigits_ne_nil i) (natDigits_all_digit i),
    digitsVal_natDigits]

theorem emScan_dollarPat (σ : EmState) (n : Nat) (rest : List Char) :
    emScan σ (dollarPat n ++ rest) = emScan .start rest := by
  obtain ⟨d, ds, hds⟩ : ∃ d ds, natDigits n = d :: ds := by
    cases h : natDigits n with
    | nil => exact absurd h (natDigits_ne_nil n)
    | cons d ds => exact ⟨d, ds, rfl⟩
  have hall := natDigits_all_digit n
  rw [hds] at hall
  have hd : d.isDigit = true := hall d (by simp)
  have hrest : ∀ c ∈ ds, c.isDigit = true := fun c hc => hall c (by simp [hc])
  simp only [dollarPat, hds, List.cons_append, emScan, emStep_dollar]
  simp only [emStep_sawDollar_digit hd, List.append_eq]
  rw [emScan_start_digits ds hrest rest]
  simp

/-- The text contains a `${digits}` substring only if the marker scan emits
something. -/
theorem extract_ne_nil_of_hasMarker {cs : List Char} (h : HasMarkerSub cs) :
    extractMarkers cs ≠ [] := by
  obtain ⟨pre, ds, post, hne, hdig, hcs⟩ := h
  unfold extractMarkers
  rw [hcs, emScan_append, emScan_digit_run _ ds post hne hdig]
  simp

theorem not_hasMarker_of_extract_nil {cs : List Char} (h : extractMarkers cs = []) :
    ¬ HasMarkerSub cs :=
  fun hm => extract_ne_nil_of_hasMarker hm h

theorem hasMarkerSub_cons {c : Char} {cs : List Char} (h : HasMarkerSub cs) :
    HasMarkerSub (c :: cs) := by
  obtain ⟨pre, ds, post, hne, hdig, hcs⟩ := h
  exact ⟨c :: pre, ds, post, hne, hdig, by rw [hcs]; rfl⟩

/-- If the marker scan emits anything then the text contains a `${digits}`
substring, or the starting state is mid-marker and the text completes it. -/
theorem hasMarker_of_emScan :
    ∀ (cs : List Char) (σ : EmState), (emScan σ cs).2 ≠ [] →
      HasMarkerSub cs
      ∨ (σ = .sawDollar ∧ ∃ ds post, ds ≠ [] ∧ (∀ c ∈ ds, c.isDigit = true) ∧
          cs = '\x7b' :: (ds ++ '\x7d' :: post))
      ∨ (∃ acc, σ = .sawBrace acc ∧ ∃ ds post, (∀ c ∈ ds, c.isDigit = true) ∧
          acc ++ ds ≠ [] ∧ cs = ds ++ '\x7d' :: post) := by
  intro cs
  induction cs with
  | nil => intro σ h; simp [emScan] at h
  | cons c cs ih =>
      intro σ h
      simp only [emScan] at h
      cases σ with
      | start =>
          by_cases hc : c = '$'
          · subst hc
            rw [show emStep .start '$' = (.sawDollar, none) from rfl] at h
            simp only [Option.toList_none, List.nil_append] at h
            rcases ih .sawDollar h with hm | ⟨_, ds, post, hne, hdig, hcs⟩ | ⟨acc, hacc, _⟩
            · exact Or.inl (hasMarkerSub_cons hm)
            · exact Or.inl ⟨[], ds, post, hne, hdig, by rw [hcs]; rfl⟩
            · exact absurd hacc (by simp)
          · rw [show emStep .start c = (.start, none) by simp [emStep, hc]] at h
            simp only [Option.toList_none, List.nil_append] at h
            rcases ih .start h with hm | ⟨hd, _⟩ | ⟨acc, hacc, _⟩
            · exact Or.inl (hasMarkerSub_cons hm)
            · exact absurd hd (by simp)
            · exact absurd hacc (by simp)
      | sawDollar =>
          by_cases hb : c = '\x7b'
          · subst hb
            rw [show emStep .sawDollar '\x7b' = (.sawBrace [], none) from rfl] at h
            simp only [Option.toList_none, List.nil_append] at h
            rcases ih (.sawBrace []) h with hm | ⟨hd, _⟩ | ⟨acc, hacc, ds, post, hdig, hne, hcs⟩
            · exact Or.inl (hasMarkerSub_cons hm)
            · exact absurd hd (by simp)
            · have hacc' : acc = [] := by cases hacc; rfl
              subst hacc'
              simp only [List.nil_append] at hne
              exact Or.inr (Or.inl ⟨rfl, ds, post, hne, hdig, by rw [hcs]⟩)
          · by_cases hd : c = '$'
            · subst hd
              rw [emStep_dollar] at h
              simp only [Option.toList_none, List.nil_append] at h
              rcases ih .sawDollar h with hm | ⟨_, ds, post, hne, hdig, hcs⟩ | ⟨acc, hacc, _⟩
              · exact Or.inl (hasMarkerSub_cons hm)
              · exact Or.inl ⟨[], ds, post, hne, hdig, by rw [hcs]; rfl⟩
              · exact absurd hacc (by simp)
            · rw [show emStep .sawDollar c = (.start, none) by simp [emStep, hb, hd]] at h
              simp only [Option.toList_none, List.nil_append] at h
              rcases ih .start h with hm | ⟨hd', _⟩ | ⟨acc, hacc, _⟩
              · exact Or.inl (hasMarkerSub_cons hm)
              · exact absurd hd' (by simp)
              · exact absurd hacc (by simp)
      | sawBrace acc =>
          by_cases hdg : c.isDigit = true
          · rw [emStep_sawBrace_digit acc hdg] at h
            simp only [Option.toList_none, List.nil_append] at h
            rcases ih (.sawBrace (acc ++ [c])) h with
              hm | ⟨hd, _⟩ | ⟨acc', hacc, ds, post, hdig, hne, hcs⟩
            · exact Or.inl (hasMarkerSub_cons hm)
            · exact absurd hd (by simp)
            · have hacc' : acc' = acc ++ [c] := by cases hacc; rfl
              subst hacc'
              refine Or.inr (Or.inr ⟨acc, rfl, c :: ds, post, ?_, by simp, by rw [hcs]; rfl⟩)
              intro x hx
              rcases List.mem_cons.mp hx with hx | hx
              · subst hx; exact hdg
              · exact hdig x hx
          · by_cases hbr : c = '\x7d' ∧ acc ≠ []
            · obtain ⟨hbr1, hbr2⟩ := hbr
              subst hbr1
              exact Or.inr (Or.inr ⟨acc, rfl, [], cs, by simp, by simpa using hbr2, rfl⟩)
            · by_cases hd : c = '$'
              · subst hd
                rw [emStep_dollar] at h
                simp only [Option.toList_none, List.nil_append] at h
                rcases ih .sawDollar h with hm | ⟨_, ds, post, hne, hdig, hcs⟩ | ⟨acc', hacc, _⟩
                · exact Or.inl (hasMarkerSub_cons hm)
                · exact Or.inl ⟨[], ds, post, hne, hdig, by rw [hcs]; rfl⟩
                · exact absurd hacc (by simp)
              · have hstep : emStep (.sawBrace acc) c = (.start, none) := by
                  simp only [emStep]
                  rw [if_neg hdg, if_neg hbr, if_neg hd]
                rw [hstep] at h
                simp only [Option.toList_none, List.nil_append] at h
                rcases ih .start h with hm | ⟨hd', _⟩ | ⟨acc', hacc, _⟩
                · exact Or.inl (hasMarkerSub_cons hm)
                · exact absurd hd' (by simp)
                · exact absurd hacc (by simp)

/-- The converse bridge: a nonempty marker scan witnesses a `${digits}`
substring. -/
theorem hasMarker_of_extract_ne_nil {cs : List Char} (h : extractMarkers cs ≠ []) :
    HasMarkerSub cs := by
  rcases hasMarker_of_emScan cs .start h with hm | ⟨hd, _⟩ | ⟨acc, hacc, _⟩
  · exact hm
  · exact absurd hd (by simp)
  · exact absurd hacc (by simp)

theorem extract_nil_of_not_hasMarker {cs : List Char} (h : ¬ HasMarkerSub cs) :
    extractMarkers cs = [] := by
  by_contra hne
  exact h (hasMarker_of_extract_ne_nil hne)

/-- `QRelL is cs t`: the text `t` is obtained from `cs` by replacing some of
its `?` characters by interpolation markers; `is` lists the marker indices in
order of appearance. -/
inductive QRelL : List Nat → List Char → List Char → Prop where
  | nil : QRelL [] [] []
  | keep (c : Char) {is cs t} : QRelL is cs t → QRelL is (c :: cs) (c :: t)
  | mark (i : Nat) {is cs t} : QRelL is cs t →
      QRelL (i :: is) ('?' :: cs) (markerChars i ++ t)

theorem QRelL.refl_nil : ∀ cs, QRelL [] cs cs
  | [] => .nil
  | c :: cs => .keep c (QRelL.refl_nil cs)

theorem QRelL.prepend (pre : List Char) {is cs t} (h : QRelL is cs t) :
    QRelL is (pre ++ cs) (pre ++ t) := by
  induction pre with
  | nil => exact h
  | cons c cs' ih => exact .keep c ih

theorem drop_takeWhile_length (p : Char → Bool) (l : List Char) :
    l.drop (l.takeWhile p).length = l.dropWhile p := by
  calc l.drop (l.takeWhile p).length
      = (l.takeWhile p ++ l.dropWhile p).drop (l.takeWhile p).length := by
        rw [List.takeWhile_append_dropWhile]
    _ = l.dropWhile p := List.drop_left _ _

/-- The scanner's output is the input with `?` characters at normal-state
positions replaced by the markers `replaced`, `replaced + 1`, …, and the
replacement counter never decreases. -/
theorem rqpGo_qrel :
    ∀ fuel st replaced argCount cs,
      QRelL (List.range' replaced ((rqpGo fuel st replaced argCount cs).2 - replaced))
        cs (rqpGo fuel st replaced argCount cs).1
      ∧ replaced ≤ (rqpGo fuel st replaced argCount cs).2 := by
  intro fuel
  induction fuel with
  | zero =>
      intro st replaced argCount cs
      simp only [rqpGo, Nat.sub_self, List.range']
      exact ⟨QRelL.refl_nil cs, Nat.le_refl _⟩
  | succ fuel ih =>
      intro st replaced argCount cs
      cases cs with
      | nil =>
          simp only [rqpGo, Nat.sub_self, List.range']
          exact ⟨.nil, Nat.le_refl _⟩
      | cons c cs =>
          cases st with
          | inLine =>
              have heq : rqpGo (fuel + 1) .inLine replaced argCount (c :: cs) =
                  ((c :: (rqpGo fuel (if c = '\n' then ScanState.normal else .inLine)
                      replaced argCount cs).1),
                    (rqpGo fuel (if c = '\n' then ScanState.normal else .inLine)
                      replaced argCount cs).2) := by
                simp only [rqpGo]
              rw [heq]
              obtain ⟨h1, h2⟩ :=
                ih (if c = '\n' then ScanState.normal else .inLine) replaced argCount cs
              exact ⟨.keep c h1, h2⟩
          | inBlock =>
              by_cases hc : c = '*' ∧ cs.head? = some '/'
              · obtain ⟨hc1, hc2⟩ := hc
                obtain ⟨cs', hcs⟩ : ∃ cs', cs = '/' :: cs' := by
                  cases cs with
                  | nil => simp at hc2
                  | cons d ds => simp at hc2; exact ⟨ds, by rw [hc2]⟩
                subst hc1 hcs
                have heq : rqpGo (fuel + 1) .inBlock replaced argCount ('*' :: '/' :: cs') =
                    ('*' :: '/' :: (rqpGo fuel .normal replaced argCount cs').1,
                      (rqpGo fuel .normal replaced argCount cs').2) := by
                  simp [rqpGo]
                rw [heq]
                obtain ⟨h1, h2⟩ := ih .normal replaced argCount cs'
                exact ⟨.keep '*' (.keep '/' h1), h2⟩
              · have heq : rqpGo (fuel + 1) .inBlock replaced argCount (c :: cs) =
                    (c :: (rqpGo fuel .inBlock replaced argCount cs).1,
                      (rqpGo fuel .inBlock replaced argCount cs).2) := by
                  simp [rqpGo, hc]
                rw [heq]
                obtain ⟨h1, h2⟩ := ih .inBlock replaced argCount cs
                exact ⟨.keep c h1, h2⟩
          | inDollar tag =>
              by_cases hp : tag.isPrefixOf (c :: cs) = true
              · obtain ⟨rest, hrest⟩ := List.isPrefixOf_iff_prefix.mp hp
                have heq : rqpGo (fuel + 1) (.inDollar tag) replaced argCount (c :: cs) =
                    (tag ++ (rqpGo fuel .normal replaced argCount rest).1,
                      (rqpGo fuel .normal replaced argCount rest).2) := by
                  simp only [rqpGo, if_pos hp]
                  rw [← hrest, List.drop_left]
                rw [heq, ← hrest]
                obtain ⟨h1, h2⟩ := ih .normal replaced argCount rest
                exact ⟨QRelL.prepend tag h1, h2⟩
              · have heq : rqpGo (fuel + 1) (.inDollar tag) replaced argCount (c :: cs) =
                    (c :: (rqpGo fuel (.inDollar tag) replaced argCount cs).1,
                      (rqpGo fuel (.inDollar tag) replaced argCount cs).2) := by
                  simp only [rqpGo, if_neg hp]
                rw [heq]
                obtain ⟨h1, h2⟩ := ih (.inDollar tag) replaced argCount cs
                exact ⟨.keep c h1, h2⟩
          | inSingle =>
              by_cases hc : c = '\x27' ∧ cs.head? = some '\x27'
              · obtain ⟨hc1, hc2⟩ := hc
                obtain ⟨cs', hcs⟩ : ∃ cs', cs = '\x27' :: cs' := by
                  cases cs with
                  | nil => simp at hc2
                  | cons d ds => simp at hc2; exact ⟨ds, by rw [hc2]⟩
                subst hc1 hcs
                have heq : rqpGo (fuel + 1) .inSingle replaced argCount
                      ('\x27' :: '\x27' :: cs') =
                    ('\x27' :: '\x27' :: (rqpGo fuel .inSingle replaced argCount cs').1,
                      (rqpGo fuel .inSingle replaced argCount cs').2) := by
                  simp [rqpGo]
                rw [heq]
                obtain ⟨h1, h2⟩ := ih .inSingle replaced argCount cs'
                exact ⟨.keep '\x27' (.keep '\x27' h1), h2⟩
              · by_cases hq : c = '\x27'
                · subst hq
                  have hP : cs.head? ≠ some '\x27' := fun hp => hc ⟨rfl, hp⟩
                  have heq : rqpGo (fuel + 1) .inSingle replaced argCount ('\x27' :: cs) =
                      ('\x27' :: (rqpGo fuel .normal replaced argCount cs).1,
                        (rqpGo fuel .normal replaced argCount cs).2) := by
                    simp [rqpGo, hP]
                  rw [heq]
                  obtain ⟨h1, h2⟩ := ih .normal replaced argCount cs
                  exact ⟨.keep '\x27' h1, h2⟩
                · have heq : rqpGo (fuel + 1) .inSingle replaced argCount (c :: cs) =
                      (c :: (rqpGo fuel .inSingle replaced argCount cs).1,
                        (rqpGo fuel .inSingle replaced argCount cs).2) := by
                    simp [rqpGo, hq]
                  rw [heq]
                  obtain ⟨h1, h2⟩ := ih .inSingle replaced argCount cs
                  exact ⟨.keep c h1, h2⟩
          | inDouble =>
              by_cases hc : c = '"' ∧ cs.head? = some '"'
              · obtain ⟨hc1, hc2⟩ := hc
                obtain ⟨cs', hcs⟩ : ∃ cs', cs = '"' :: cs' := by
                  cases cs with
                  | nil => simp at hc2
                  | cons d ds => simp at hc2; exact ⟨ds, by rw [hc2]⟩
                subst hc1 hcs
                have heq : rqpGo (fuel + 1) .inDouble replaced argCount ('"' :: '"' :: cs') =
                    ('"' :: '"' :: (rqpGo fuel .inDouble replaced argCount cs').1,
                      (rqpGo fuel .inDouble replaced argCount cs').2) := by
                  simp [rqpGo]
                rw [heq]
                obtain ⟨h1, h2⟩ := ih .inDouble replaced argCount cs'
                exact ⟨.keep '"' (.keep '"' h1), h2⟩
              · by_cases hq : c = '"'
                · subst hq
                  have hP : cs.head? ≠ some '"' := fun hp => hc ⟨rfl, hp⟩
                  have heq : rqpGo (fuel + 1) .inDouble replaced argCount ('"' :: cs) =
                      ('"' :: (rqpGo fuel .normal replaced argCount cs).1,
                        (rqpGo fuel .normal replaced argCount cs).2) := by
                    simp [rqpGo, hP]
                  rw [heq]
                  obtain ⟨h1, h2⟩ := ih .normal replaced argCount cs
                  exact ⟨.keep '"' h1, h2⟩
                · have heq : rqpGo (fuel + 1) .inDouble replaced argCount (c :: cs) =
                      (c :: (rqpGo fuel .inDouble replaced argCount cs).1,
                        (rqpGo fuel .inDouble replaced argCount cs).2) := by
                    simp [rqpGo, hq]
                  rw [heq]
                  obtain ⟨h1, h2⟩ := ih .inDouble replaced argCount cs
                  exact ⟨.keep c h1, h2⟩
          | normal =>
              by_cases h1 : c = '\x27'
              · subst h1
                have heq : rqpGo (fuel + 1) .normal replaced argCount ('\x27' :: cs) =
                    ('\x27' :: (rqpGo fuel .inSingle replaced argCount cs).1,
                      (rqpGo fuel .inSingle replaced argCount cs).2) := by
                  simp [rqpGo]
                rw [heq]
                obtain ⟨ha, hb⟩ := ih .inSingle replaced argCount cs
                exact ⟨.keep '\x27' ha, hb⟩
              by_cases h2 : c = '"'
              · subst h2
                have heq : rqpGo (fuel + 1) .normal replaced argCount ('"' :: cs) =
                    ('"' :: (rqpGo fuel .inDouble replaced argCount cs).1,
                      (rqpGo fuel .inDouble replaced argCount cs).2) := by
                  simp [rqpGo]
                rw [heq]
                obtain ⟨ha, hb⟩ := ih .inDouble replaced argCount cs
                exact ⟨.keep '"' ha, hb⟩
              by_cases h3 : c = '-' ∧ cs.head? = some '-'
              · obtain ⟨h3a, h3b⟩ := h3
                obtain ⟨cs', hcs⟩ : ∃ cs', cs = '-' :: cs' := by
                  cases cs with
                  | nil => simp at h3b
                  | cons d ds => simp at h3b; exact ⟨ds, by rw [h3b]⟩
                subst h3a hcs
                have heq : rqpGo (fuel + 1) .normal replaced argCount ('-' :: '-' :: cs') =
                    ('-' :: '-' :: (rqpGo fuel .inLine replaced argCount cs').1,
                      (rqpGo fuel .inLine replaced argCount cs').2) := by
                  simp [rqpGo]
                rw [heq]
                obtain ⟨ha, hb⟩ := ih .inLine replaced argCount cs'
                exact ⟨.keep '-' (.keep '-' ha), hb⟩
              by_cases h4 : c = '/' ∧ cs.head? = some '*'
              · obtain ⟨h4a, h4b⟩ := h4
                obtain ⟨cs', hcs⟩ : ∃ cs', cs = '*' :: cs' := by
                  cases cs with
                  | nil => simp at h4b
                  | cons d ds => simp at h4b; exact ⟨ds, by rw [h4b]⟩
                subst h4a hcs
                have heq : rqpGo (fuel + 1) .normal replaced argCount ('/' :: '*' :: cs') =
                    ('/' :: '*' :: (rqpGo fuel .inBlock replaced argCount cs').1,
                      (rqpGo fuel .inBlock replaced argCount cs').2) := by
                  simp [rqpGo, h3]
                rw [heq]
                obtain ⟨ha, hb⟩ := ih .inBlock replaced argCount cs'
                exact ⟨.keep '/' (.keep '*' ha), hb⟩
              by_cases h5 : c = '$' ∧ (cs.drop (cs.takeWhile isWordChar).length).head? = some '$'
              · obtain ⟨h5a, h5b⟩ := h5
                subst h5a
                obtain ⟨tl, htl⟩ : ∃ tl,
                    cs.drop (cs.takeWhile isWordChar).length = '$' :: tl := by
                  cases hdw : cs.drop (cs.takeWhile isWordChar).length with
                  | nil => rw [hdw] at h5b; simp at h5b
                  | cons d ds =>
                      rw [hdw] at h5b; simp at h5b
                      exact ⟨ds, by rw [h5b]⟩
                have hdd : cs.drop ((cs.takeWhile isWordChar).length + 1) = tl := by
                  have hstep : cs.drop ((cs.takeWhile isWordChar).length + 1) =
                      (cs.drop (cs.takeWhile isWordChar).length).drop 1 := by
                    rw [List.drop_drop, Nat.add_comm]
                  rw [hstep, htl]; rfl
                have hsplit : cs = cs.takeWhile isWordChar ++ '$' :: tl := by
                  conv_lhs => rw [← List.takeWhile_append_dropWhile (p := isWordChar) (l := cs)]
                  rw [← drop_takeWhile_length isWordChar cs, htl]
                have heq : rqpGo (fuel + 1) .normal replaced argCount ('$' :: cs) =
                    (('$' :: cs.takeWhile isWordChar ++ ['$']) ++
                        (rqpGo fuel (.inDollar ('$' :: cs.takeWhile isWordChar ++ ['$']))
                          replaced argCount tl).1,
                      (rqpGo fuel (.inDollar ('$' :: cs.takeWhile isWordChar ++ ['$']))
                        replaced argCount tl).2) := by
                  simp [rqpGo, h3, h4, h5b, hdd]
                rw [heq]
                obtain ⟨ha, hb⟩ :=
                  ih (.inDollar ('$' :: cs.takeWhile isWordChar ++ ['$'])) replaced argCount tl
                refine ⟨?_, hb⟩
                have hout : '$' :: cs = ('$' :: cs.takeWhile isWordChar ++ ['$']) ++ tl := by
                  conv_lhs => rw [hsplit]
                  simp
                rw [hout]
                exact QRelL.prepend _ ha
              by_cases h6 : c = '?' ∧ replaced < argCount
              · obtain ⟨h6a, h6b⟩ := h6
                subst h6a
                have heq : rqpGo (fuel + 1) .normal replaced argCount ('?' :: cs) =
                    (markerChars replaced ++
                        (rqpGo fuel .normal (replaced + 1) argCount cs).1,
                      (rqpGo fuel .normal (replaced + 1) argCount cs).2) := by
                  simp [rqpGo, h3, h4, h5, h6b]
                rw [heq]
                obtain ⟨ha, hb⟩ := ih .normal (replaced + 1) argCount cs
                refine ⟨?_, by omega⟩
                have hr : (rqpGo fuel .normal (replaced + 1) argCount cs).2 - replaced =
                    ((rqpGo fuel .normal (replaced + 1) argCount cs).2 - (replaced + 1)) + 1 := by
                  omega
                rw [hr, List.range'_succ]
                exact .mark replaced ha
              · have heq : rqpGo (fuel + 1) .normal replaced argCount (c :: cs) =
                    (c :: (rqpGo fuel .normal replaced argCount cs).1,
                      (rqpGo fuel .normal replaced argCount cs).2) := by
                  simp [rqpGo, h1, h2, h3, h4, h6]
                  intro hc hsome
                  exact absurd ⟨hc, by rw [List.head?_drop]; exact hsome⟩ h5
                rw [heq]
                obtain ⟨ha, hb⟩ := ih .normal replaced argCount cs
                exact ⟨.keep c ha, hb⟩

/-- Emission equivalence along `QRelL`: when the scan of the source text emits
nothing, the scan of the rewritten text emits exactly the replaced indices. -/
theorem qrel_emScan {is cs t} (h : QRelL is cs t) :
    ∀ σ, (emScan σ cs).2 = [] → (emScan σ t).2 = is := by
  induction h with
  | nil => intro σ _; rfl
  | keep c h ih =>
      intro σ hcs
      simp only [emScan] at hcs ⊢
      rcases List.append_eq_nil.mp hcs with ⟨hev, hrest⟩
      rw [hev, ih _ hrest]
      simp
  | mark i h ih =>
      intro σ hcs
      simp only [emScan, emStep_question σ] at hcs
      simp only [Option.toList_none, List.nil_append] at hcs
      rw [emScan_marker σ i _]
      simp only
      rw [ih .start hcs]

/-- On the `?` path, a successful translation of a marker-free SQL text
recognizes exactly the indices `0, …, N-1`, in order. -/
theorem rqp_some_range {sql : String} {N : Nat} {t : String}
    (hclean : ¬ HasMarkerSub sql.data)
    (h : replaceQuestionPlaceholders sql N = some t) :
    extractMarkers t.data = List.range N := by
  unfold replaceQuestionPlaceholders at h
  by_cases hr : (rqpGo sql.data.length .normal 0 N sql.data).2 ≠ N
  · rw [if_pos hr] at h
    exact absurd h (by simp)
  · rw [if_neg hr] at h
    push_neg at hr
    have ht : t.data = (rqpGo sql.data.length .normal 0 N sql.data).1 := by
      injection h with h'
      rw [← h']
    obtain ⟨hq, _⟩ := rqpGo_qrel sql.data.length .normal 0 N sql.data
    rw [hr] at hq
    simp only [Nat.sub_zero] at hq
    have hnil : (emScan .start sql.data).2 = [] := by
      by_contra hne
      exact hclean (hasMarker_of_extract_ne_nil hne)
    have hext := qrel_emScan hq .start hnil
    rw [ht]
    unfold extractMarkers
    rw [hext, List.range_eq_range']

/-- `SubstRel N pat cs t`: the text `t` is obtained from `cs` by replacing
some occurrences of `pat` by interpolation markers with indices below `N`. -/
inductive SubstRel (N : Nat) (pat : List Char) : List Char → List Char → Prop where
  | nil : SubstRel N pat [] []
  | keep (c : Char) {cs t} : SubstRel N pat cs t → SubstRel N pat (c :: cs) (c :: t)
  | subst {i : Nat} {cs t} : i < N → SubstRel N pat cs t →
      SubstRel N pat (pat ++ cs) (markerChars i ++ t)

/-- `replaceAll pat marker` realizes `SubstRel`. -/
theorem replaceListGo_substRel {N : Nat} {pat : List Char} (hp : pat ≠ []) {i : Nat}
    (hi : i < N) :
    ∀ fuel cs, cs.length ≤ fuel →
      SubstRel N pat cs (replaceListGo pat (markerChars i) fuel cs) := by
  intro fuel
  induction fuel with
  | zero =>
      intro cs h
      have : cs = [] := List.eq_nil_of_length_eq_zero (by omega)
      subst this
      exact .nil
  | succ fuel ih =>
      intro cs h
      cases cs with
      | nil => exact .nil
      | cons c cs =>
          by_cases hpre : pat.isPrefixOf (c :: cs) = true
          · obtain ⟨rest, hrest⟩ := List.isPrefixOf_iff_prefix.mp hpre
            have heq : replaceListGo pat (markerChars i) (fuel + 1) (c :: cs) =
                markerChars i ++
                  replaceListGo pat (markerChars i) fuel ((c :: cs).drop pat.length) := by
              simp [replaceListGo, hpre]
            have hdrop : (c :: cs).drop pat.length = rest := by
              rw [← hrest]; exact List.drop_left _ _
            rw [heq, hdrop, ← hrest]
            have hlen : pat.length + rest.length = (c :: cs).length := by
              rw [← hrest]; simp
            have hp1 : 1 ≤ pat.length := by
              cases pat with
              | nil => exact absurd rfl hp
              | cons a b => simp
            refine SubstRel.subst hi (ih rest ?_)
            simp only [List.length_cons] at h hlen
            omega
          · have heq : replaceListGo pat (markerChars i) (fuel + 1) (c :: cs) =
                c :: replaceListGo pat (markerChars i) fuel cs := by
              simp [replaceListGo, hpre]
            rw [heq]
            refine SubstRel.keep c (ih cs ?_)
            simp only [List.length_cons] at h
            omega

/-- Emission simulation along `SubstRel`: when the pattern resets the marker
scan without emitting, every emission of the rewritten text is an emission of
the source text or a marker index below `N`. -/
theorem substRel_emScan {N : Nat} {pat : List Char}
    (hpat : ∀ σ rest, emScan σ (pat ++ rest) = emScan .start rest) :
    ∀ {cs t}, SubstRel N pat cs t →
      ∀ σ x, x ∈ (emScan σ t).2 → x ∈ (emScan σ cs).2 ∨ x < N := by
  intro cs t h
  induction h with
  | nil => intro σ x hx; exact Or.inl hx
  | keep c h ih =>
      intro σ x hx
      simp only [emScan] at hx ⊢
      rcases List.mem_append.mp hx with hx | hx
      · exact Or.inl (List.mem_append.mpr (Or.inl hx))
      · rcases ih _ x hx with h' | h'
        · exact Or.inl (List.mem_append.mpr (Or.inr h'))
        · exact Or.inr h'
  | subst hi h ih =>
      intro σ x hx
      rw [emScan_marker] at hx
      simp only at hx
      rcases List.mem_cons.mp hx with hx | hx
      · subst hx; exact Or.inr hi
      · rcases ih .start x hx with h' | h'
        · rw [hpat σ _]
          exact Or.inl h'
        · exact Or.inr h'

/-- The descending `$n`-replacement chain never introduces a marker index at
or above `N` (markers already present are preserved, and each pass inserts
only its own index). -/
theorem replaceDollarAux_bound {N : Nat} :
    ∀ (k : Nat) (t : List Char), k ≤ N → (∀ x ∈ extractMarkers t, x < N) →
      ∀ x ∈ extractMarkers (replaceDollarAux k t), x < N := by
  intro k
  induction k with
  | zero => intro t _ hb; simpa [replaceDollarAux] using hb
  | succ k ih =>
      intro t hk hb
      show ∀ x ∈ extractMarkers
        (replaceDollarAux k (replaceList (dollarPat (k + 1)) (markerChars k) t)), x < N
      refine ih _ (by omega) ?_
      intro x hx
      have hrel : SubstRel N (dollarPat (k + 1)) t
          (replaceList (dollarPat (k + 1)) (markerChars k) t) :=
        replaceListGo_substRel (by simp [dollarPat]) (by omega) t.length t (Nat.le_refl _)
      rcases substRel_emScan (fun σ rest => emScan_dollarPat σ (k + 1) rest) hrel .start x hx
        with h | h
      · exact hb x h
      · exact h

/-- `SubstRel` is reflexive: a text rewrites to itself with no substitution. -/
theorem substRel_refl {N : Nat} {pat : List Char} : ∀ cs, SubstRel N pat cs cs
  | [] => .nil
  | c :: cs => .keep c (substRel_refl cs)

/-- `replace` (first occurrence only) with the pattern `?` realizes
`SubstRel`: at most one `?` is substituted, by a marker with index below
`N`. -/
theorem replaceFirst_substRel {N i : Nat} (hi : i < N) :
    ∀ cs, SubstRel N ['?'] cs (replaceFirst ['?'] (markerChars i) cs) := by
  intro cs
  induction cs with
  | nil => exact .nil
  | cons c cs ih =>
      by_cases hp : (['?'] : List Char).isPrefixOf (c :: cs) = true
      · have hc : c = '?' := by
          obtain ⟨rest, hrest⟩ := List.isPrefixOf_iff_prefix.mp hp
          rw [List.cons_append, List.nil_append] at hrest
          injection hrest with h1 h2
          exact h1.symm
        subst hc
        have heq : replaceFirst ['?'] (markerChars i) ('?' :: cs) =
            markerChars i ++ cs := by
          simp [replaceFirst, hp]
        rw [heq]
        exact SubstRel.subst hi (substRel_refl cs)
      · have heq : replaceFirst ['?'] (markerChars i) (c :: cs) =
            c :: replaceFirst ['?'] (markerChars i) cs := by
          simp [replaceFirst, hp]
        rw [heq]
        exact .keep c ih

/-- Feeding `?` to the marker scan resets it to `start` with no emission. -/
theorem emScan_question (σ : EmState) (rest : List Char) :
    emScan σ (['?'] ++ rest) = emScan .start rest := by
  simp [emScan, emStep_question]

/-- The sequential `?`-replacement loop of the base adapters never introduces
a marker index at or above `N` when it starts at index `i` with
`i + k ≤ N`. -/
theorem naiveQAux_bound {N : Nat} :
    ∀ (k i : Nat) (t : List Char), i + k ≤ N → (∀ x ∈ extractMarkers t, x < N) →
      ∀ x ∈ extractMarkers (naiveQAux k i t), x < N := by
  intro k
  induction k with
  | zero => intro i t _ hb; simpa [naiveQAux] using hb
  | succ k ih =>
      intro i t hik hb
      show ∀ x ∈ extractMarkers
        (naiveQAux k (i + 1) (replaceFirst ['?'] (markerChars i) t)), x < N
      refine ih (i + 1) _ (by omega) ?_
      intro x hx
      have hrel : SubstRel N ['?'] t (replaceFirst ['?'] (markerChars i) t) :=
        replaceFirst_substRel (by omega) t
      rcases substRel_emScan (fun σ rest => emScan_question σ rest) hrel .start x hx
        with h | h
      · exact hb x h
      · exact h

/-- The base Postgres translator (descending `$n` chain when `$1` occurs,
sequential `?` replacement otherwise) keeps every marker index below the
argument count on marker-free input. -/
theorem convertPgBase_bound (sql : String) (N : Nat)
    (hclean : ¬ HasMarkerSub sql.data) :
    ∀ i ∈ extractMarkers (convertParameterPlaceholdersPgBase sql N).data, i < N := by
  unfold convertParameterPlaceholdersPgBase
  by_cases hinf : containsSub "$1".data sql.data = true
  · rw [if_pos hinf]
    show ∀ i ∈ extractMarkers (replaceDollarAux N sql.data), i < N
    refine replaceDollarAux_bound N sql.data (Nat.le_refl N) ?_
    rw [extract_nil_of_not_hasMarker hclean]
    intro x hx
    cases hx
  · rw [if_neg hinf]
    show ∀ i ∈ extractMarkers (naiveQAux N 0 sql.data), i < N
    refine naiveQAux_bound N 0 sql.data (by omega) ?_
    rw [extract_nil_of_not_hasMarker hclean]
    intro x hx
    cases hx

/-- The base MySQL/SQLite translator keeps every marker index below the
argument count on marker-free input. -/
theorem convertMySQL_bound (sql : String) (N : Nat)
    (hclean : ¬ HasMarkerSub sql.data) :
    ∀ i ∈ extractMarkers (convertParameterPlaceholdersMySQL sql N).data, i < N := by
  show ∀ i ∈ extractMarkers (naiveQAux N 0 sql.data), i < N
  refine naiveQAux_bound N 0 sql.data (by omega) ?_
  rw [extract_nil_of_not_hasMarker hclean]
  intro x hx
  cases hx

/-- Reading `args[i]` at every index of an in-bounds `argOrder` succeeds. -/
theorem argOrder_get_isSome {argOrder : List Nat} {args : List JSValue}
    (hb : ∀ i ∈ argOrder, i < args.length) :
    ∀ o ∈ argOrder.map (fun i => args.get? i), o.isSome = true := by
  intro o ho
  rcases List.mem_map.mp ho with ⟨i, hi, rfl⟩
  cases hsome : args.get? i with
  | none =>
      rw [List.get?_eq_none] at hsome
      have := hb i hi
      omega
  | some a => rfl

/-- The cache returned by the base Postgres plan is either unchanged or the
old cache with one entry prepended: the template compiled from the converted
SQL, with `paramCount = args.length` and `argOrder` the extracted marker
indices of the converted text. -/
theorem executeQueryPlanBasePg_cache_cases (cache : TemplateCache) (sql : String)
    (args : List JSValue) :
    (executeQueryPlanBasePg cache sql args).1 = cache ∨
    (executeQueryPlanBasePg cache sql args).1 =
      (sql, (⟨createTemplateStrings
            ((markerSplit (convertParameterPlaceholdersPgBase sql args.length).data).map
              (fun q => (⟨q⟩ : String))),
          args.length,
          extractMarkers (convertParameterPlaceholdersPgBase sql args.length).data⟩ :
            CompiledTemplate)) :: cache := by
  unfold executeQueryPlanBasePg
  by_cases hemp : args.isEmpty = true
  · rw [if_pos hemp]
    exact Or.inl rfl
  · rw [if_neg hemp]
    dsimp only
    split
    · rename_i cache' tpl heq
      split at heq
      · injection heq with h1 h2
        rw [← h1]
        exact Or.inr rfl
      · injection heq with h1 h2
        rw [← h1]
        exact Or.inl rfl
    · rename_i cache' heq
      split at heq
      · injection heq with h1 h2
        cases h2
      · injection heq with h1 h2
        rw [← h1]
        exact Or.inl rfl

/-! ## Claim theorems -/

/-- Claim C1 (code_bug): the read path must pass a JavaScript array through
unchanged for every `queryRaw` result.  This holds for the base adapter's
pipeline but fails on the optimized adapter: at the one-row result
`{perms: ["ALL"]}` the base pipeline returns the array itself (opaque column
type), while the optimized pipeline classifies the column as JSON and returns
the JSON-stringified text `["ALL"]` instead of the list. -/
theorem c1_read_path_array :
    processResultBase [[("perms", JSValue.vArr [JSValue.vStr "ALL"])]] =
      ⟨["perms"], [.unknownNumber], [[JSValue.vArr [JSValue.vStr "ALL"]]]⟩
    ∧ processResultOpt [[("perms", JSValue.vArr [JSValue.vStr "ALL"])]] =
      ⟨["perms"], [.json], [[JSValue.vStr "[\"ALL\"]"]]⟩ :=
  ⟨rfl, rfl⟩

/-- Claim C2 (confirmed): the `$n` translator replaces markers from the
highest index down to 1 and records each replaced marker's original argument
index in `argOrder` in left-to-right order of the rewritten text.  For
`SELECT $1 as label, $1 as label2` with one argument, `argOrder` is `[0, 0]`
and the single argument is bound at both interpolation slots (optimized and
base Postgres adapters); with `$12` alongside `$1` and twelve arguments,
`$12` is rewritten to `${11}` intact, uncorrupted by the `$1` pass. -/
theorem c2_dollar_translator :
    (buildTemplateOpt "SELECT $1 as label, $1 as label2" 1).map (·.argOrder) =
      some [0, 0]
    ∧ (executeQueryPlanOpt [] "SELECT $1 as label, $1 as label2"
        [JSValue.vStr "x"]).2.values = [JSValue.vStr "x", JSValue.vStr "x"]
    ∧ replaceDollarPlaceholders "SELECT $12 as a, $1 as b" 12 =
        "SELECT ${11} as a, ${0} as b"
    ∧ extractMarkers (replaceDollarPlaceholders "SELECT $12 as a, $1 as b" 12).data =
        [11, 0]
    ∧ convertParameterPlaceholdersPgBase "SELECT $1 as label, $1 as label2" 1 =
        "SELECT ${0} as label, ${0} as label2"
    ∧ (executeQueryPlanBasePg [] "SELECT $1 as label, $1 as label2"
        [JSValue.vStr "x"]).2.values = [JSValue.vStr "x", JSValue.vStr "x"] :=
  ⟨rfl, rfl, rfl, rfl, rfl, rfl⟩

/-- Claim C4 (code_bug): the column type inferencer must scan all rows and
classify a column holding an array in any row as the opaque/array type.  At a
column whose row-0 value is `null` and whose row-1 value is an array, the base
`determineColumnTypes` yields the opaque tag, but the optimized variant
classifies the same column as JSON. -/
theorem c4_column_type_scan :
    determineColumnTypesBase
        [[("c", JSValue.vNull)], [("c", JSValue.vArr [JSValue.vStr "x"])]] ["c"] =
      [.unknownNumber]
    ∧ determineColumnTypesOpt
        [[("c", JSValue.vNull)], [("c", JSValue.vArr [JSValue.vStr "x"])]] ["c"] =
      [.json] :=
  ⟨rfl, rfl⟩

theorem coerce_no_prim_array (xs : List JSValue) :
    ∀ v ∈ coerceArgsForPostgres xs, isPrimArrayVal v = false := by
  intro v hv
  rcases List.mem_map.mp hv with ⟨u, _, rfl⟩
  cases u with
  | vArr ys =>
      show isPrimArrayVal (if isPrimitiveArray ys then vStr (toPgArrayLiteral ys)
        else vArr ys) = false
      by_cases h : isPrimitiveArray ys
      · simp [h, isPrimArrayVal]
      · simp only [h, if_false, if_neg h]
        simpa [isPrimArrayVal] using (by simpa using h)
  | vNull => rfl
  | vUndef => rfl
  | vBool b => rfl
  | vNum a b r => rfl
  | vStr s => rfl
  | vBigInt n => rfl
  | vDate iso => rfl
  | vBuf bs => rfl
  | vObj fs => rfl

/-- Claim C10 (confirmed): for every compiled template either adapter
produces for an SQL text containing no pre-existing `${digits}` substring and
a declared argument count `N`, every index recorded in `argOrder` is below
`N`, and consequently the expansion `argOrder.map(i => args[i])` over an
argument list of length `N` never reads outside the supplied arguments.
Conjunct 1 covers the optimized adapter's `buildTemplate`; conjuncts 2 and 3
bound the marker indices emitted by the base Postgres translator (descending
`$n` chain and `?` fallback) and the base MySQL/SQLite translator; conjunct 4
covers the base Postgres `executeQueryOptimized`: every template it adds to
its cache (whose `argOrder` is extracted from the converted SQL and whose
`paramCount` is the argument count) has all indices below the argument count,
and its expansion reads every index successfully. -/
theorem c10_argOrder_in_bounds :
    (∀ (sql : String) (N : Nat) (tpl : CompiledTemplate),
      ¬ HasMarkerSub sql.data →
      buildTemplateOpt sql N = some tpl →
      (∀ i ∈ tpl.argOrder, i < N) ∧
      ∀ (args : List JSValue), args.length = N →
        ∀ o ∈ tpl.argOrder.map (fun i => args.get? i), o.isSome = true)
    ∧ (∀ (sql : String) (N : Nat), ¬ HasMarkerSub sql.data →
        ∀ i ∈ extractMarkers (convertParameterPlaceholdersPgBase sql N).data, i < N)
    ∧ (∀ (sql : String) (N : Nat), ¬ HasMarkerSub sql.data →
        ∀ i ∈ extractMarkers (convertParameterPlaceholdersMySQL sql N).data, i < N)
    ∧ (∀ (cache : TemplateCache) (sql : String) (args : List JSValue),
        ¬ HasMarkerSub sql.data →
        ∀ p ∈ (executeQueryPlanBasePg cache sql args).1,
          p ∈ cache ∨
          ((∀ i ∈ p.2.argOrder, i < args.length) ∧
            ∀ o ∈ p.2.argOrder.map (fun i => args.get? i), o.isSome = true)) := by
  refine ⟨?_, ?_, ?_, ?_⟩
  rotate_left
  · intro sql N hclean
    exact convertPgBase_bound sql N hclean
  · intro sql N hclean
    exact convertMySQL_bound sql N hclean
  · intro cache sql args hclean p hp
    rcases executeQueryPlanBasePg_cache_cases cache sql args with hc | hc
    · rw [hc] at hp
      exact Or.inl hp
    · rw [hc] at hp
      rcases List.mem_cons.mp hp with rfl | hmem
      · right
        have hbnd : ∀ i ∈ extractMarkers
            (convertParameterPlaceholdersPgBase sql args.length).data,
            i < args.length :=
          convertPgBase_bound sql args.length hclean
        exact ⟨hbnd, argOrder_get_isSome hbnd⟩
      · exact Or.inl hmem
  intro sql N tpl hclean hb
  have hbound : ∀ i ∈ tpl.argOrder, i < N := by
    unfold buildTemplateOpt at hb
    cases hrp : replacePlaceholdersOpt sql N with
    | none => rw [hrp] at hb; cases hb
    | some templateSql =>
        rw [hrp] at hb
        have hao : tpl.argOrder = extractMarkers templateSql.data := by
          cases hb; rfl
        rw [hao]
        unfold replacePlaceholdersOpt at hrp
        by_cases h0 : N = 0
        · subst h0
          rw [if_pos rfl] at hrp
          injection hrp with hrp'
          rw [← hrp', extract_nil_of_not_hasMarker hclean]
          intro i hi
          cases hi
        · rw [if_neg h0] at hrp
          by_cases hd : hasDollarNum sql.data = true
          · rw [if_pos hd] at hrp
            injection hrp with hrp'
            rw [← hrp']
            show ∀ i ∈ extractMarkers (replaceDollarPlaceholders sql N).data, i < N
            unfold replaceDollarPlaceholders
            refine replaceDollarAux_bound N sql.data (Nat.le_refl N) ?_
            rw [extract_nil_of_not_hasMarker hclean]
            intro x hx
            cases hx
          · rw [if_neg hd] at hrp
            by_cases hq : sql.data.contains '?' = true
            · rw [if_pos hq] at hrp
              rw [rqp_some_range hclean hrp]
              intro i hi
              exact List.mem_range.mp hi
            · rw [if_neg hq] at hrp
              cases hrp
  refine ⟨hbound, ?_⟩
  intro args hlen o ho
  rcases List.mem_map.mp ho with ⟨i, hi, rfl⟩
  have hilt : i < args.length := by rw [hlen]; exact hbound i hi
  cases hsome : args.get? i with
  | none =>
      rw [List.get?_eq_none] at hsome
      omega
  | some a => rfl

/-- Witness for the C10 theorem: the optimized template for `SELECT $1 + $2`
with two arguments has `argOrder = [0, 1]`, both below 2; the base Postgres
translator on `SELECT $1, $2` with count 2 emits the index 1 below 2; the
base MySQL translator on `SELECT ?` with count 1 emits the index 0 below 1;
and the template the base Postgres plan caches for `SELECT $1` with one
argument has its single index 0 below 1. -/
theorem c10_argOrder_in_bounds_witness :
    ((0 : Nat) < 2 ∧ (1 : Nat) < 2) ∧ (1 : Nat) < 2 ∧ (0 : Nat) < 1 ∧
      (0 : Nat) < 1 := by
  have h1 := (c10_argOrder_in_bounds.1 "SELECT $1 + $2" 2
    ⟨["SELECT ", " + ", ""], 2, [0, 1]⟩ (not_hasMarker_of_extract_nil rfl) rfl).1
  have h2 := c10_argOrder_in_bounds.2.1 "SELECT $1, $2" 2
    (not_hasMarker_of_extract_nil rfl) 1 (by decide)
  have h3 := c10_argOrder_in_bounds.2.2.1 "SELECT ?" 1
    (not_hasMarker_of_extract_nil rfl) 0 (by decide)
  have h4 := c10_argOrder_in_bounds.2.2.2 [] "SELECT $1" [JSValue.vStr "x"]
    (not_hasMarker_of_extract_nil rfl)
    ("SELECT $1", (⟨["SELECT ", ""], 1, [0]⟩ : CompiledTemplate))
    (List.mem_singleton.mpr rfl)
  rcases h4 with h4 | h4
  · cases h4
  · exact ⟨⟨h1 0 (by decide), h1 1 (by decide)⟩, h2, h3, h4.1 0 (by decide)⟩

/-- Claim C5 (confirmed): on the Postgres adapters the argument coercer is
applied before invoking the host client on every execution path with a
non-empty argument list — in particular on the fallback path taken when the
translator recognized no placeholders — so no raw primitive array ever
reaches the host client, and an `executeRaw` carrying `["ALL"]` sends the
array-literal text `{"ALL"}` whether or not the placeholder convention was
recognized. -/
theorem c5_coercion_all_paths :
    (∀ (cache : TemplateCache) (sql : String) (args : List JSValue),
        args ≠ [] →
        (getOrCreateTemplateOpt cache sql args.length).2 = none →
        (executeQueryPlanOpt cache sql args).2.values = coerceArgsForPostgres args)
    ∧ (∀ (cache : TemplateCache) (sql : String) (args : List JSValue),
        ∀ v ∈ (executeQueryPlanOpt cache sql args).2.values, isPrimArrayVal v = false)
    ∧ (∀ (cache : TemplateCache) (sql : String) (args : List JSValue),
        args ≠ [] →
        List.lookup sql cache = none →
        hasParameterPlaceholdersPgBase sql = false →
        (executeQueryPlanBasePg cache sql args).2.values = coerceArgsForPostgres args)
    ∧ (∀ (cache : TemplateCache) (sql : String) (args : List JSValue),
        ∀ v ∈ (executeQueryPlanBasePg cache sql args).2.values, isPrimArrayVal v = false)
    ∧ (executeQueryPlanOpt []
        "INSERT INTO users (name, permissions) VALUES (@name, @permissions)"
        [JSValue.vArr [JSValue.vStr "ALL"]]).2.values =
        [JSValue.vStr "\x7b\"ALL\"\x7d"]
    ∧ (executeQueryPlanOpt [] "INSERT INTO users (permissions) VALUES ($1)"
        [JSValue.vArr [JSValue.vStr "ALL"]]).2.values =
        [JSValue.vStr "\x7b\"ALL\"\x7d"]
    ∧ (executeQueryPlanBasePg []
        "INSERT INTO users (name, permissions) VALUES (@name, @permissions)"
        [JSValue.vArr [JSValue.vStr "ALL"]]).2.values =
        [JSValue.vStr "\x7b\"ALL\"\x7d"] := by
  refine ⟨?_, ?_, ?_, ?_, rfl, rfl, rfl⟩
  · intro cache sql args hne hg
    unfold executeQueryPlanOpt
    rw [if_neg (fun h => hne (List.isEmpty_iff.mp h))]
    rcases hgc : getOrCreateTemplateOpt cache sql args.length with ⟨c', o⟩
    rw [hgc] at hg
    simp only at hg
    subst hg
    rfl
  · intro cache sql args v hv
    unfold executeQueryPlanOpt at hv
    by_cases hemp : args.isEmpty = true
    · rw [if_pos hemp] at hv
      cases hv
    · rw [if_neg hemp] at hv
      rcases hgc : getOrCreateTemplateOpt cache sql args.length with ⟨c', o⟩
      rw [hgc] at hv
      cases o with
      | some tpl => exact coerce_no_prim_array _ v hv
      | none => exact coerce_no_prim_array _ v hv
  · intro cache sql args hne hlk hhp
    unfold executeQueryPlanBasePg
    rw [if_neg (fun h => hne (List.isEmpty_iff.mp h))]
    dsimp only
    rw [hhp, Bool.and_false, if_neg (by simp : ¬ (false = true)), hlk]
  · intro cache sql args v hv
    unfold executeQueryPlanBasePg at hv
    by_cases hemp : args.isEmpty = true
    · rw [if_pos hemp] at hv
      cases hv
    · rw [if_neg hemp] at hv
      dsimp only at hv
      split at hv
      · exact coerce_no_prim_array _ v hv
      · exact coerce_no_prim_array _ v hv

/-- Witness for the C5 theorem: the fallback path of the optimized plan (no
recognized placeholders) still coerces the array argument. -/
theorem c5_coercion_all_paths_witness :
    (executeQueryPlanOpt [] "UPDATE t SET x = 1"
        [JSValue.vArr [JSValue.vStr "ALL"]]).2.values =
      coerceArgsForPostgres [JSValue.vArr [JSValue.vStr "ALL"]] :=
  c5_coercion_all_paths.1 [] "UPDATE t SET x = 1" [JSValue.vArr [JSValue.vStr "ALL"]]
    (by simp) rfl

/-- Claim C6 (corrected), counterexample: the `?`-convention translator of the
base MySQL adapter (`convertParameterPlaceholders`, also used by SQLite) has
no literal/comment-aware scanner; it replaces the first `paramCount` `?`
occurrences textually.  With a `?` inside a single-quoted literal and two real
placeholders, the literal `?` is consumed as the first placeholder slot and
the last real `?` is left untouched, contradicting the claim that only
normal-state `?` are treated as placeholders. -/
theorem c6_mysql_naive_translator :
    convertParameterPlaceholdersMySQL "SELECT '?', ?, ?" 2 =
      "SELECT '${0}', ${1}, ?" := rfl

/-- Claim C6 (corrected), amended: the scanner-guarded behaviour holds for the
optimized Postgres adapter's `replaceQuestionPlaceholders`.  On SQL containing
`?` inside a single-quoted literal (with `''` escape), a double-quoted
identifier (with `""` escape), a dollar-quoted body, a line comment and a
block comment, alongside exactly two real placeholders, it recognizes exactly
the two placeholders `[0, 1]`, leaves every literal `?` unchanged in the
rewritten text, and the host call binds exactly the two arguments. -/
theorem c6_scanner_guarded_translator :
    replaceQuestionPlaceholders
        "SELECT '?a''?b' AS q, \"c?\"\"d?\" AS i, $t$ ? $t$ AS d, ? AS p1, -- x?\n /* y? */ ? AS p2"
        2 =
      some
        "SELECT '?a''?b' AS q, \"c?\"\"d?\" AS i, $t$ ? $t$ AS d, ${0} AS p1, -- x?\n /* y? */ ${1} AS p2"
    ∧ extractMarkers
        ("SELECT '?a''?b' AS q, \"c?\"\"d?\" AS i, $t$ ? $t$ AS d, ${0} AS p1, -- x?\n /* y? */ ${1} AS p2" : String).data =
        [0, 1]
    ∧ (executeQueryPlanOpt []
        "SELECT '?a''?b' AS q, \"c?\"\"d?\" AS i, $t$ ? $t$ AS d, ? AS p1, -- x?\n /* y? */ ? AS p2"
        [JSValue.vStr "alpha", JSValue.vStr "beta"]).2.values =
        [JSValue.vStr "alpha", JSValue.vStr "beta"] :=
  ⟨rfl, rfl, rfl⟩

/-- Claim C8 (corrected), counterexample: with more `?` placeholders in the
text than declared arguments (`SELECT ?, ?, ?` with 2 arguments), the
translator does not signal "no recognized placeholders": it replaces the
first two `?` and leaves the third as literal text, and the compiled template
is produced (non-null). -/
theorem c8_extra_placeholders_accepted :
    replaceQuestionPlaceholders "SELECT ?, ?, ?" 2 = some "SELECT ${0}, ${1}, ?"
    ∧ (getOrCreateTemplateOpt [] "SELECT ?, ?, ?" 2).2.isSome = true :=
  ⟨rfl, rfl⟩

/-- Claim C8 (corrected), amended: when fewer `?` placeholders are found than
the declared argument count, the translator returns `null`, the template
lookup signals "no recognized placeholders" and the execution falls back to
the whole-statement path; and whenever the translation does succeed on a
marker-free SQL text, the rewritten text carries exactly the `N` interpolation
slots `0, …, N-1` (never truncated or padded).  Extra `?` beyond the argument
count are left as literal text (see the counterexample). -/
theorem c8_mismatch_fallback :
    replaceQuestionPlaceholders "SELECT ?" 2 = none
    ∧ (getOrCreateTemplateOpt [] "SELECT ?" 2).2 = none
    ∧ (executeQueryPlanOpt [] "SELECT ?"
        [JSValue.vStr "a", JSValue.vStr "b"]).2.strings = ["SELECT ?", ""]
    ∧ ∀ (sql : String) (N : Nat) (t : String), ¬ HasMarkerSub sql.data →
        replaceQuestionPlaceholders sql N = some t →
        extractMarkers t.data = List.range N :=
  ⟨rfl, rfl, rfl, fun _ _ _ hc h => rqp_some_range hc h⟩

/-- Witness for the amended C8 theorem at a concrete input. -/
theorem c8_mismatch_fallback_witness :
    extractMarkers ("SELECT ${0}, ${1}, ?" : String).data = List.range 2 :=
  c8_mismatch_fallback.2.2.2 "SELECT ?, ?, ?" 2 "SELECT ${0}, ${1}, ?"
    (not_hasMarker_of_extract_nil rfl) rfl

theorem countEv_append (e : TxEvent) (a b : List TxEvent) :
    countEv e (a ++ b) = countEv e a + countEv e b :=
  List.countP_append _ _ _

theorem txRun_append (step : TxOp → TxState → TxStepResult) :
    ∀ (a b : List TxOp) (s : TxState),
      txRun step s (a ++ b) =
        ((txRun step (txRun step s a).1 b).1,
          (txRun step s a).2 ++ (txRun step (txRun step s a).1 b).2) := by
  intro a
  induction a with
  | nil => intro b s; rfl
  | cons op ops ih =>
      intro b s
      simp only [List.cons_append, txRun, List.append_eq]
      rw [ih]

theorem txRun_length (step : TxOp → TxState → TxStepResult) :
    ∀ (ops : List TxOp) (s : TxState), (txRun step s ops).2.length = ops.length := by
  intro ops
  induction ops with
  | nil => intro s; rfl
  | cons op rest ih => intro s; simp only [txRun, List.length_cons, ih]

theorem txTrace_cons (step : TxOp → TxState → TxStepResult) (op : TxOp)
    (ops : List TxOp) (s : TxState) :
    txTrace step s (op :: ops) =
      (step op s).events ++ txTrace step (step op s).state ops := by
  simp [txTrace, txRun]

/-- Whichever way `finalize` runs, the transaction ends finished. -/
theorem txFinalize_finished (isC k : Bool) (s : TxState) :
    (txFinalize isC k s).state.finished = true := by
  unfold txFinalize
  by_cases h : s.finished = true
  · rw [if_pos h]; exact h
  · rw [if_neg h]
    cases isC <;> rfl

theorem txQuery_step_opt (k : Bool) (s : TxState) :
    txStepOpt (.query k) s = txQuery k s := rfl

theorem txQuery_step_base (k : Bool) (s : TxState) :
    txStepBase (.query k) s = txQuery k s := rfl

/-- Once finished, every operation is a no-op on state and events
(optimized adapter). -/
theorem txStepOpt_finished (op : TxOp) {s : TxState} (h : s.finished = true) :
    (txStepOpt op s).state = s ∧ (txStepOpt op s).events = [] := by
  cases op with
  | query k => simp [txStepOpt, txQuery, h]
  | commit k =>
      cases hab : s.aborted <;>
        simp [txStepOpt, txCommitOpt, txFinalize, h, hab]
  | rollback k => simp [txStepOpt, txRollback, txFinalize, h]

/-- Once finished, every operation is a no-op on state and events
(base adapter). -/
theorem txStepBase_finished (op : TxOp) {s : TxState} (h : s.finished = true) :
    (txStepBase op s).state = s ∧ (txStepBase op s).events = [] := by
  cases op with
  | query k => simp [txStepBase, txQuery, h]
  | commit k => simp [txStepBase, txCommitBase, h]
  | rollback k => simp [txStepBase, txRollback, txFinalize, h]

theorem txTrace_finished {step : TxOp → TxState → TxStepResult}
    (hfin : ∀ (op : TxOp) (s : TxState), s.finished = true →
      (step op s).state = s ∧ (step op s).events = []) :
    ∀ (ops : List TxOp) (s : TxState), s.finished = true → txTrace step s ops = [] := by
  intro ops
  induction ops with
  | nil => intro s _; rfl
  | cons op rest ih =>
      intro s h
      rw [txTrace_cons, (hfin op s h).2, (hfin op s h).1, List.nil_append]
      exact ih s h

/-- An "operation result" view of one query op: no release events, no commit
statement, finished unchanged, aborted only set. -/
theorem txRun_queries {step : TxOp → TxState → TxStepResult}
    (hq : ∀ (k : Bool) (s : TxState), step (.query k) s = txQuery k s) :
    ∀ (ops : List TxOp) (s : TxState),
      (∀ op ∈ ops, isQueryOp op = true) → s.finished = false →
      (txRun step s ops).1.finished = false
      ∧ ((TxOp.query false ∈ ops ∨ s.aborted = true) → (txRun step s ops).1.aborted = true)
      ∧ countEv .resRelease (txTrace step s ops) = 0
      ∧ countEv .commitSql (txTrace step s ops) = 0 := by
  intro ops
  induction ops with
  | nil =>
      intro s _ hf
      refine ⟨hf, ?_, rfl, rfl⟩
      intro h
      rcases h with h | h
      · cases h
      · exact h
  | cons op rest ih =>
      intro s hqs hf
      obtain ⟨k, hk⟩ : ∃ k, op = .query k := by
        cases op with
        | query k => exact ⟨k, rfl⟩
        | commit k =>
            have h := hqs (.commit k) (List.mem_cons_self _ _)
            simp [isQueryOp] at h
        | rollback k =>
            have h := hqs (.rollback k) (List.mem_cons_self _ _)
            simp [isQueryOp] at h
      subst hk
      have hstep : step (.query k) s = txQuery k s := hq k s
      have hstate : (txQuery k s).state =
          if k then s else ⟨s.finished, true⟩ := by
        cases k <;> simp [txQuery, hf]
      have hev : (txQuery k s).events = [.querySql] := by
        cases k <;> simp [txQuery, hf]
      have hrest := ih (txQuery k s).state (fun o ho => hqs o (by simp [ho]))
        (by cases k <;> simp [hstate, hf])
      have hruns : txRun step s (TxOp.query k :: rest) =
          ((txRun step (txQuery k s).state rest).1,
            ((txQuery k s).events, (txQuery k s).error) ::
              (txRun step (txQuery k s).state rest).2) := by
        simp [txRun, hstep]
      constructor
      · rw [hruns]; exact hrest.1
      constructor
      · intro hor
        rw [hruns]
        simp only
        refine hrest.2.1 ?_
        rcases hor with hmem | hab
        · rcases List.mem_cons.mp hmem with hh | hh
          · have hkf : k = false := by injection hh.symm
            subst hkf
            right
            simp [hstate, hf]
          · exact Or.inl hh
        · right
          cases k <;> simp [hstate, hab]
      · have htr : txTrace step s (TxOp.query k :: rest) =
            [.querySql] ++ txTrace step (txQuery k s).state rest := by
          rw [txTrace_cons, hstep, hev]
        rw [htr]
        constructor
        · rw [countEv_append, hrest.2.2.1]; rfl
        · rw [countEv_append, hrest.2.2.2]; rfl

/-- The commit step on an unfinished aborted transaction (both adapters):
issues `ROLLBACK`, releases both resources, and throws. -/
theorem txCommitOpt_aborted (k : Bool) :
    txStepOpt (.commit k) ⟨false, true⟩ =
      ⟨⟨true, true⟩, [.rollbackSql, .resRelease, .connRelease],
        some "Transaction rolled back due to a previous error"⟩ := by
  simp [txStepOpt, txCommitOpt, txFinalize]

theorem txCommitBase_aborted (k : Bool) :
    txStepBase (.commit k) ⟨false, true⟩ =
      ⟨⟨true, true⟩, [.rollbackSql, .resRelease, .connRelease],
        some "Transaction rolled back due to a previous error"⟩ := by
  simp [txStepBase, txCommitBase, txFinalize]

/-- Shared proof of the C3 property for one adapter's stepper. -/
theorem c3_generic {step : TxOp → TxState → TxStepResult}
    (hq : ∀ (k : Bool) (s : TxState), step (.query k) s = txQuery k s)
    (hc : ∀ k : Bool, step (.commit k) ⟨false, true⟩ =
      ⟨⟨true, true⟩, [.rollbackSql, .resRelease, .connRelease],
        some "Transaction rolled back due to a previous error"⟩)
    (hfin : ∀ (op : TxOp) (s : TxState), s.finished = true →
      (step op s).state = s ∧ (step op s).events = [])
    (pre post : List TxOp) (k : Bool)
    (hqs : ∀ op ∈ pre, isQueryOp op = true)
    (hmem : TxOp.query false ∈ pre) :
    (txRun step txInit (pre ++ .commit k :: post)).2.get? pre.length =
      some ([.rollbackSql, .resRelease, .connRelease],
        some "Transaction rolled back due to a previous error")
    ∧ countEv .resRelease (txTrace step txInit (pre ++ .commit k :: post)) = 1
    ∧ countEv .commitSql (txTrace step txInit (pre ++ .commit k :: post)) = 0 := by
  obtain ⟨hfinished, haborted, hres0, hcom0⟩ :=
    txRun_queries hq pre txInit hqs rfl
  have hs1 : (txRun step txInit pre).1 = ⟨false, true⟩ := by
    have h2 := haborted (Or.inl hmem)
    cases hst : (txRun step txInit pre).1 with
    | mk fin ab =>
        rw [hst] at hfinished h2
        simp only at hfinished h2
        rw [hfinished, h2]
  have hsplit := txRun_append step pre (.commit k :: post) txInit
  have hrun2 : txRun step (txRun step txInit pre).1 (.commit k :: post) =
      ((txRun step (⟨true, true⟩ : TxState) post).1,
        ([.rollbackSql, .resRelease, .connRelease],
          some "Transaction rolled back due to a previous error") ::
          (txRun step (⟨true, true⟩ : TxState) post).2) := by
    rw [hs1]
    simp [txRun, hc k]
  refine ⟨?_, ?_, ?_⟩
  · rw [hsplit, hrun2]
    simp only
    rw [List.get?_append_right (by rw [txRun_length])]
    rw [txRun_length]
    simp
  · have htr : txTrace step txInit (pre ++ .commit k :: post) =
        txTrace step txInit pre ++
          ([.rollbackSql, .resRelease, .connRelease] ++
            txTrace step (⟨true, true⟩ : TxState) post) := by
      unfold txTrace
      rw [hsplit, hrun2]
      simp [txTrace]
    rw [htr, countEv_append, countEv_append, hres0,
      txTrace_finished hfin post (⟨true, true⟩ : TxState) rfl]
    rfl
  · have htr : txTrace step txInit (pre ++ .commit k :: post) =
        txTrace step txInit pre ++
          ([.rollbackSql, .resRelease, .connRelease] ++
            txTrace step (⟨true, true⟩ : TxState) post) := by
      unfold txTrace
      rw [hsplit, hrun2]
      simp [txTrace]
    rw [htr, countEv_append, countEv_append, hcom0,
      txTrace_finished hfin post (⟨true, true⟩ : TxState) rfl]
    rfl

theorem txRollback_error_none (k : Bool) (s : TxState) :
    (txRollback k s).error = none := by
  unfold txRollback txFinalize
  by_cases h : s.finished = true
  · rw [if_pos h]
  · rw [if_neg h]
    simp

theorem txRollback_finished_noop {s : TxState} (h : s.finished = true) (k : Bool) :
    txRollback k s = ⟨s, [], none⟩ := by
  simp [txRollback, txFinalize, h]

theorem txStepOpt_commit_finishes (k : Bool) (s : TxState) :
    (txStepOpt (.commit k) s).state.finished = true := by
  by_cases hab : s.aborted = true
  · simp [txStepOpt, txCommitOpt, hab, txFinalize_finished]
  · simp [txStepOpt, txCommitOpt, hab, txFinalize_finished]

theorem txStepBase_commit_finishes (k : Bool) (s : TxState) :
    (txStepBase (.commit k) s).state.finished = true := by
  by_cases hf : s.finished = true
  · simp [txStepBase, txCommitBase, hf]
  · by_cases hab : s.aborted = true
    · simp [txStepBase, txCommitBase, hf, hab, txFinalize_finished]
    · simp only [txStepBase, txCommitBase, hf, hab, if_neg, if_false]
      rw [if_neg (by simp [hf]), if_neg (by simp [hab])]
      cases herr : (txFinalize true k s).error with
      | some e => simp [txFinalize_finished]
      | none => simp [txFinalize_finished]

/-- A one-step release bound: from an unfinished state any operation emits at
most one reserved-connection release, and emits none unless it finishes the
transaction (optimized adapter). -/
theorem txStepOpt_release_bound (op : TxOp) (s : TxState) (hf : s.finished = false) :
    countEv .resRelease (txStepOpt op s).events ≤ 1
    ∧ ((txStepOpt op s).state.finished = false →
        countEv .resRelease (txStepOpt op s).events = 0) := by
  cases s with
  | mk sf sa =>
      simp only at hf
      subst hf
      cases op with
      | query k =>
          have hev : (txStepOpt (.query k) (⟨false, sa⟩ : TxState)).events =
              [.querySql] := by
            cases k <;> simp [txStepOpt, txQuery]
          rw [hev]
          exact ⟨by decide, fun _ => by decide⟩
      | commit k =>
          cases sa
          · refine ⟨?_, ?_⟩
            · simp only [txStepOpt, txCommitOpt, txFinalize]
              simp
              decide
            · intro h
              rw [txStepOpt_commit_finishes k ⟨false, false⟩] at h
              cases h
          · refine ⟨?_, ?_⟩
            · simp only [txStepOpt, txCommitOpt, txFinalize]
              simp
              decide
            · intro h
              rw [txStepOpt_commit_finishes k ⟨false, true⟩] at h
              cases h
      | rollback k =>
          refine ⟨?_, ?_⟩
          · simp only [txStepOpt, txRollback, txFinalize]
            simp
            decide
          · intro h
            rw [show (txStepOpt (.rollback k) ⟨false, sa⟩).state.finished = true from
              txFinalize_finished false k _] at h
            cases h

/-- The same one-step release bound for the base adapter. -/
theorem txStepBase_release_bound (op : TxOp) (s : TxState) (hf : s.finished = false) :
    countEv .resRelease (txStepBase op s).events ≤ 1
    ∧ ((txStepBase op s).state.finished = false →
        countEv .resRelease (txStepBase op s).events = 0) := by
  cases s with
  | mk sf sa =>
      simp only at hf
      subst hf
      cases op with
      | query k =>
          have hev : (txStepBase (.query k) (⟨false, sa⟩ : TxState)).events =
              [.querySql] := by
            cases k <;> simp [txStepBase, txQuery]
          rw [hev]
          exact ⟨by decide, fun _ => by decide⟩
      | commit k =>
          refine ⟨?_, ?_⟩
          · cases sa
            · cases k <;> simp [txStepBase, txCommitBase, txFinalize] <;> decide
            · cases k <;> simp [txStepBase, txCommitBase, txFinalize] <;> decide
          · intro h
            rw [txStepBase_commit_finishes k ⟨false, sa⟩] at h
            cases h
      | rollback k =>
          refine ⟨?_, ?_⟩
          · simp only [txStepBase, txRollback, txFinalize]
            simp
            decide
          · intro h
            rw [show (txStepBase (.rollback k) ⟨false, sa⟩).state.finished = true from
              txFinalize_finished false k _] at h
            cases h

/-- Trace-level release bound by induction over the operation sequence. -/
theorem txTrace_release_le {step : TxOp → TxState → TxStepResult}
    (hfin : ∀ (op : TxOp) (s : TxState), s.finished = true →
      (step op s).state = s ∧ (step op s).events = [])
    (hb : ∀ (op : TxOp) (s : TxState), s.finished = false →
      countEv .resRelease (step op s).events ≤ 1
      ∧ ((step op s).state.finished = false →
          countEv .resRelease (step op s).events = 0)) :
    ∀ (ops : List TxOp) (s : TxState),
      countEv .resRelease (txTrace step s ops) ≤ if s.finished then 0 else 1 := by
  intro ops
  induction ops with
  | nil =>
      intro s
      have : txTrace step s [] = [] := rfl
      rw [this]
      cases s.finished <;> simp [countEv]
  | cons op rest ih =>
      intro s
      rw [txTrace_cons, countEv_append]
      cases hf : s.finished
      · have hb1 := hb op s hf
        cases hf2 : (step op s).state.finished
        · have h0 := hb1.2 hf2
          have hr := ih (step op s).state
          rw [hf2] at hr
          simp only [if_neg (by simp : ¬ (false = true))] at hr ⊢
          omega
        · have hr := ih (step op s).state
          rw [hf2] at hr
          simp at hr
          have h1 := hb1.1
          simp only [if_neg (by simp : ¬ (false = true))]
          omega
      · have h := hfin op s hf
        rw [h.2, h.1]
        have hr := ih s
        rw [hf] at hr
        have h0 : countEv .resRelease ([] : List TxEvent) = 0 := rfl
        rw [h0]
        simp at hr ⊢
        omega

/-- A second `rollback()` (or a `rollback()` after `commit()`) yields no
events and no error, for a stepper that finishes on the first finalize. -/
theorem second_finalize_noop {step : TxOp → TxState → TxStepResult} (a : TxOp)
    (hroll : ∀ (k : Bool) (s : TxState), step (.rollback k) s = txRollback k s)
    (hfirst : ∀ s : TxState, (step a s).state.finished = true) :
    ∀ (ops : List TxOp) (k' : Bool),
      (txRun step txInit (ops ++ [a, .rollback k'])).2.get? (ops.length + 1) =
        some ([], none) := by
  intro ops k'
  rw [txRun_append]
  simp only
  rw [List.get?_append_right (by rw [txRun_length]; omega), txRun_length]
  have hidx : ops.length + 1 - ops.length = 1 := by omega
  rw [hidx]
  have hsecond : step (.rollback k') (step a (txRun step txInit ops).1).state =
      ⟨(step a (txRun step txInit ops).1).state, [], none⟩ := by
    rw [hroll]
    exact txRollback_finished_noop (hfirst _) k'
  simp [txRun, hsecond]

/-- Claim C3 (confirmed): in a transaction where a query raised (and no
finalize has run yet), the next `commit()` call performs a `ROLLBACK`,
releases the reserved connection and the underlying connection, and itself
throws "Transaction rolled back due to a previous error"; no `COMMIT` is ever
issued, and across the whole operation sequence — whatever follows the commit
— the reserved connection is released exactly once.  This holds for both the
optimized and the base adapter. -/
theorem c3_aborted_commit_rolls_back :
    ∀ (pre post : List TxOp) (k : Bool),
      (∀ op ∈ pre, isQueryOp op = true) →
      TxOp.query false ∈ pre →
      ((txRun txStepOpt txInit (pre ++ .commit k :: post)).2.get? pre.length =
          some ([.rollbackSql, .resRelease, .connRelease],
            some "Transaction rolled back due to a previous error")
        ∧ countEv .resRelease (txTrace txStepOpt txInit (pre ++ .commit k :: post)) = 1
        ∧ countEv .commitSql (txTrace txStepOpt txInit (pre ++ .commit k :: post)) = 0)
      ∧ ((txRun txStepBase txInit (pre ++ .commit k :: post)).2.get? pre.length =
          some ([.rollbackSql, .resRelease, .connRelease],
            some "Transaction rolled back due to a previous error")
        ∧ countEv .resRelease (txTrace txStepBase txInit (pre ++ .commit k :: post)) = 1
        ∧ countEv .commitSql (txTrace txStepBase txInit (pre ++ .commit k :: post)) = 0) :=
  fun pre post k hqs hmem =>
    ⟨c3_generic txQuery_step_opt txCommitOpt_aborted
        (fun op s h => txStepOpt_finished op h) pre post k hqs hmem,
      c3_generic txQuery_step_base txCommitBase_aborted
        (fun op s h => txStepBase_finished op h) pre post k hqs hmem⟩

/-- Witness for the C3 theorem: scenario C — one successful query, one
failing query, then `commit()`. -/
theorem c3_aborted_commit_rolls_back_witness :
    (txRun txStepOpt txInit [.query true, .query false, .commit true]).2.get? 2 =
      some ([.rollbackSql, .resRelease, .connRelease],
        some "Transaction rolled back due to a previous error")
    ∧ countEv .resRelease
        (txTrace txStepBase txInit [.query true, .query false, .commit true]) = 1 := by
  have h := c3_aborted_commit_rolls_back [.query true, .query false] [] true
    (by decide) (by decide)
  exact ⟨h.1.1, h.2.2.1⟩

/-- Claim C7 (confirmed): transaction finalization is idempotent and never
double-releases, for both adapters: `rollback()` never throws; across every
operation sequence the reserved connection is released at most once; and a
`rollback()` following a prior `rollback()` or a prior `commit()` performs no
host interaction and reports no error. -/
theorem c7_finalize_idempotent :
    (∀ (s : TxState) (k : Bool), (txStepOpt (.rollback k) s).error = none)
    ∧ (∀ (s : TxState) (k : Bool), (txStepBase (.rollback k) s).error = none)
    ∧ (∀ ops : List TxOp, countEv .resRelease (txTrace txStepOpt txInit ops) ≤ 1)
    ∧ (∀ ops : List TxOp, countEv .resRelease (txTrace txStepBase txInit ops) ≤ 1)
    ∧ (∀ (ops : List TxOp) (k k' : Bool),
        (txRun txStepOpt txInit (ops ++ [.rollback k, .rollback k'])).2.get?
          (ops.length + 1) = some ([], none))
    ∧ (∀ (ops : List TxOp) (k k' : Bool),
        (txRun txStepOpt txInit (ops ++ [.commit k, .rollback k'])).2.get?
          (ops.length + 1) = some ([], none))
    ∧ (∀ (ops : List TxOp) (k k' : Bool),
        (txRun txStepBase txInit (ops ++ [.rollback k, .rollback k'])).2.get?
          (ops.length + 1) = some ([], none))
    ∧ (∀ (ops : List TxOp) (k k' : Bool),
        (txRun txStepBase txInit (ops ++ [.commit k, .rollback k'])).2.get?
          (ops.length + 1) = some ([], none)) := by
  refine ⟨fun s k => txRollback_error_none k s, fun s k => txRollback_error_none k s,
    ?_, ?_, ?_, ?_, ?_, ?_⟩
  · intro ops
    have h := txTrace_release_le (fun op s h => txStepOpt_finished op h)
      txStepOpt_release_bound ops txInit
    simpa [txInit] using h
  · intro ops
    have h := txTrace_release_le (fun op s h => txStepBase_finished op h)
      txStepBase_release_bound ops txInit
    simpa [txInit] using h
  · intro ops k k'
    exact second_finalize_noop (.rollback k) (fun _ _ => rfl)
      (fun s => txFinalize_finished false k s) ops k'
  · intro ops k k'
    exact second_finalize_noop (.commit k) (fun _ _ => rfl)
      (fun s => txStepOpt_commit_finishes k s) ops k'
  · intro ops k k'
    exact second_finalize_noop (.rollback k) (fun _ _ => rfl)
      (fun s => txFinalize_finished false k s) ops k'
  · intro ops k k'
    exact second_finalize_noop (.commit k) (fun _ _ => rfl)
      (fun s => txStepBase_commit_finishes k s) ops k'

/-- Claim C9 (confirmed): the argument coercer maps every all-primitive array
(null/string/number/boolean elements) to the brace-delimited array-literal
text with the specified element renderings, and returns any other array (for
example one containing an object) unmodified; in particular `["ALL"]` yields
`{"ALL"}`, `[1,2,3]` yields `{1,2,3}`, `[true,false,null]` yields
`{true,false,NULL}`, and `[{a:1}]` is returned as the original array. -/
theorem c9_argument_coercer :
    (∀ xs : List JSValue,
      coerceArgForPostgres (JSValue.vArr xs) =
        if isPrimitiveArray xs then JSValue.vStr (specPgArrayLiteral xs)
        else JSValue.vArr xs)
    ∧ coerceArgsForPostgres [JSValue.vArr [JSValue.vStr "ALL"]] =
        [JSValue.vStr "\x7b\"ALL\"\x7d"]
    ∧ coerceArgsForPostgres [JSValue.vArr [JSValue.vNum true true "1",
        JSValue.vNum true true "2", JSValue.vNum true true "3"]] =
        [JSValue.vStr "\x7b1,2,3\x7d"]
    ∧ coerceArgsForPostgres [JSValue.vArr [JSValue.vBool true,
        JSValue.vBool false, JSValue.vNull]] =
        [JSValue.vStr "\x7btrue,false,NULL\x7d"]
    ∧ coerceArgsForPostgres
        [JSValue.vArr [JSValue.vObj [("a", JSValue.vNum true true "1")]]] =
        [JSValue.vArr [JSValue.vObj [("a", JSValue.vNum true true "1")]]] := by
  refine ⟨fun xs => ?_, rfl, rfl, rfl, rfl⟩
  show (if isPrimitiveArray xs then JSValue.vStr (toPgArrayLiteral xs)
    else JSValue.vArr xs) = _
  by_cases h : isPrimitiveArray xs
  · simp only [h, if_true]
    rw [toPgArrayLiteral_spec xs h]
  · simp [h]

end PBA
